import Mathlib

/-!
Shallow embedding of the multi-GPU nearest-neighbor engine from
`GTC_Spring_2022/numerical-computing/examples/multi-gpu-threading-rmm-numba.ipynb`.

The notebook defines the Dispatcher `get_nearest` and the worker thread body
`_get_nearest_multi`; those are embedded from the source.  The two CUDA kernels
`block_min_reduce` and `global_min_reduce` are imported by the notebook from
`src.solvers`, whose file is not part of this repository snapshot, so they are
modelled from the spec (sections 4.1-4.3): a per-block first-minimum scan over a
contiguous partition of the reference set into B = 32 chunks, followed by a
global strict-less-than reduction over the 32 per-block candidates.

Machine reals are modelled exactly: distances live in an arbitrary linear
order, and the concrete haversine distance of spec section 4.1 is defined over ℝ.
Python's `int(a / b)` on integers truncates toward zero, which is `Int.tdiv`.
-/

/-- Errors the Python code can actually raise while planning the multi-device
round, plus the spec's `ConfigurationError` (section 7), which is modelled so
that theorems can state that the code never raises it. -/
inductive PyError where
  | zeroDivisionError
  | indexError
  | configurationError
  deriving DecidableEq, Repr

/-- Modelled from the spec: candidate record produced by the reducers, a pair of
a reference index and its distance to the observation. -/
abbrev Cand (α : Type) := Nat × α

/-- Modelled from the spec (sections 4.2 and 4.3): combine two optional
candidates keeping the smaller distance under a strict less-than comparison, so
the earlier (left) candidate wins ties; `none` marks an idle unit with no
candidate, which never participates in a comparison. -/
def combineMin {α : Type} [LinearOrder α] :
    Option (Cand α) → Option (Cand α) → Option (Cand α)
  | none, b => b
  | some a, none => some a
  | some a, some b => if b.2 < a.2 then some b else some a

/-- Modelled from the spec (section 4.2): running first-minimum scan of a list
of candidates, in list order, with a strict less-than comparison. -/
def firstMin {α : Type} [LinearOrder α] (l : List (Cand α)) : Option (Cand α) :=
  l.foldl (fun acc c => combineMin acc (some c)) none

/-- Index-tagging of a list starting at key `n` (the reference indices attached
to the distances scanned by the block reducer). -/
def enumD {β : Type} : Nat → List β → List (Nat × β)
  | _, [] => []
  | n, x :: xs => (n, x) :: enumD (n + 1) xs

/-- Modelled from the spec (section 4.2): block count B of the reference
configuration. -/
def blockCount : Nat := 32

/-- Modelled from the spec (sections 4.2-4.3), source kernels `block_min_reduce`
and `global_min_reduce` being absent from the repository snapshot: for one
observation `o`, partition the reference set into `blockCount` contiguous
chunks, let each execution unit produce its first minimum (an idle unit with an
empty chunk produces `none`), then reduce the per-unit candidates with the same
strict less-than rule, earliest unit winning ties.  Returns the final
(reference index, distance) pair, or `none` when there are no references. -/
def nearestRef {P α : Type} [LinearOrder α] (dist : P → P → α)
    (refs : List P) (o : P) : Option (Cand α) :=
  let cands := enumD 0 (refs.map (fun r => dist o r))
  let c := (refs.length + (blockCount - 1)) / blockCount
  let blockOuts := (List.range blockCount).map
    (fun u => firstMin ((cands.drop (u * c)).take c))
  blockOuts.foldl combineMin none

/-- The two parallel output arrays of the Dispatcher (`out_idx`, `out_dist` in
the source); a `none` slot models device memory that no kernel has written. -/
structure Buffers (α : Type) where
  outIdx : List (Option Nat)
  outDist : List (Option α)
  deriving DecidableEq, Repr

/-- Freshly allocated, unwritten output buffers (`cuda.device_array` in the
source allocates without initializing). -/
def initBufs (α : Type) (n : Nat) : Buffers α :=
  ⟨List.replicate n none, List.replicate n none⟩

/-- Python slice assignment `buf[s : s + vals.length] = vals`. -/
def writeSlice {β : Type} (buf : List β) (s : Nat) (vals : List β) : List β :=
  buf.take s ++ vals ++ buf.drop (s + vals.length)

/-- One job's work, from `_get_nearest_multi` in the source: slice the
observations to the job's half-open range, run the two kernels on the slice,
and write the per-observation results into the output buffers at the job's
offset.  A job is a `(start, end)` pair of observation indices. -/
def applyJob {P α : Type} [LinearOrder α] (dist : P → P → α)
    (refs obs : List P) (bufs : Buffers α) (r : Nat × Nat) : Buffers α :=
  let res := ((obs.drop r.1).take (r.2 - r.1)).map (fun o => nearestRef dist refs o)
  { outIdx := writeSlice bufs.outIdx r.1 (res.map (fun c => c.map (fun p => p.1)))
    outDist := writeSlice bufs.outDist r.1 (res.map (fun c => c.map (fun p => p.2))) }

/-- Batch-size resolution from the source: `if batch_size == 'auto': batch_size
= size/(n_gpus)` then `batch_size = int(batch_size)`; `none` is the sentinel
`"auto"`.  Python's `int(size / n_gpus)` on non-negative operands is `Int.tdiv`;
the `G = 0` division-by-zero case is guarded where this function is used. -/
def resolveBatchVal (size nGpus : Nat) (batchSize : Option Int) : Int :=
  match batchSize with
  | none => Int.tdiv (size : Int) (nGpus : Int)
  | some b => b

/-- Job ranges built by the source loop `for j in range(n_jobs)`: `start = j *
batch_size`, `end = (j + 1) * batch_size` except the last job, whose `end`
is the full size. -/
def mkRanges (size batch nJobs : Nat) : List (Nat × Nat) :=
  (List.range nJobs).map
    (fun j => (j * batch, if j = nJobs - 1 then size else (j + 1) * batch))

/-- Planning phase of the source's multi-GPU path: resolve the batch size, then
`n_jobs = int(size / min(batch_size, size))` — raising `ZeroDivisionError` when
the divisor is zero, exactly as Python does — and build the job ranges.  No
validation of any kind is performed, faithful to the source. -/
def planJobs (size nGpus : Nat) (batchSize : Option Int) :
    Except PyError (List (Nat × Nat)) :=
  if batchSize = none ∧ nGpus = 0 then .error .zeroDivisionError
  else
    let batch := resolveBatchVal size nGpus batchSize
    let m := min batch (size : Int)
    if m = 0 then .error .zeroDivisionError
    else .ok (mkRanges size batch.toNat (Int.tdiv (size : Int) m).toNat)

/-- Append `x` to the `i`-th inner list. -/
def appendAt {β : Type} (qs : List (List β)) (i : Nat) (x : β) : List (List β) :=
  qs.set i (qs.getD i [] ++ [x])

/-- The source's queue-assignment loop: `qid` starts at 0, is reset to 0
whenever it reaches the number of queues, and each job is put on queue `qid`
before `qid` is incremented. -/
def roundRobinCore {β : Type} (nq : Nat) (jobs : List β) : List (List β) :=
  (jobs.foldl
    (fun st job =>
      let qid := if nq ≤ st.2 then 0 else st.2
      (appendAt st.1 qid job, qid + 1))
    (List.replicate nq ([] : List β), 0)).1

/-- Queue assignment including the `IndexError` Python raises from
`queues[qid]` when there are zero queues but at least one job. -/
def roundRobin {β : Type} (nq : Nat) (jobs : List β) :
    Except PyError (List (List β)) :=
  if nq = 0 ∧ jobs.isEmpty = false then .error .indexError
  else .ok (roundRobinCore nq jobs)

/-- The Dispatcher `get_nearest` from the source.  The single-device path runs
the two kernels once over the whole observation set (modelled as one job
covering `[0, N)`).  The multi-device path plans the job ranges, round-robins
them over one queue per device, and runs every queue's jobs; because the job
ranges written by distinct workers are disjoint, the concurrent execution is
modelled by processing the queues in order.  `nGpus` is the resolved device
count (the `"auto"` sentinel reads the machine's device list, which is outside
the program text). -/
def get_nearest {P α : Type} [LinearOrder α] (dist : P → P → α)
    (obs refs : List P) (batchSize : Option Int) (multigpu : Bool)
    (nGpus : Nat) : Except PyError (List (Option Nat) × List (Option α)) :=
  let n := obs.length
  if multigpu = false then
    let b := applyJob dist refs obs (initBufs α n) (0, n)
    .ok (b.outIdx, b.outDist)
  else
    match planJobs n nGpus batchSize with
    | .error e => .error e
    | .ok rs =>
      match roundRobin nGpus rs with
      | .error e => .error e
      | .ok qs =>
        let b := qs.foldl (fun bufs q => q.foldl (applyJob dist refs obs) bufs)
          (initBufs α n)
        .ok (b.outIdx, b.outDist)

/-- The worker loop of `_get_nearest_multi`: `while q.unfinished_tasks > 0`,
dequeue one job, process it, mark it done.  The first argument of the recursion
is the queue's pending jobs, the second the queue's unfinished-task counter.
`none` models the worker blocking forever inside `q.get()` (the counter is
positive but the queue is empty and no producer remains). -/
def workerLoop {P α : Type} [LinearOrder α] (dist : P → P → α)
    (refs obs : List P) :
    List (Nat × Nat) → Nat → Buffers α → Option (Buffers α)
  | _, 0, bufs => some bufs
  | [], _ + 1, _ => none
  | j :: rest, u + 1, bufs =>
      workerLoop dist refs obs rest u (applyJob dist refs obs bufs j)

/-- Worker behavior when kernel launches can fail (`fails` marks the jobs whose
kernel launch or synchronization raises): the exception terminates the worker
thread before it writes that job's outputs, the rest of its queue is left
unprocessed, and nothing is retried.  Python's `threading` confines the
exception to the worker thread. -/
def workerRunF {P α : Type} [LinearOrder α] (dist : P → P → α)
    (refs obs : List P) (fails : Nat × Nat → Bool) :
    List (Nat × Nat) → Buffers α → Buffers α
  | [], bufs => bufs
  | j :: rest, bufs =>
      if fails j then bufs
      else workerRunF dist refs obs fails rest (applyJob dist refs obs bufs j)

/-- The multi-device path when kernel execution can fail.  `w.join()` on a
thread that died from an exception returns normally and the Dispatcher has no
try/except, so the call still returns its (possibly partially written) buffers
and reports no error. -/
def get_nearestF {P α : Type} [LinearOrder α] (dist : P → P → α)
    (fails : Nat × Nat → Bool) (obs refs : List P) (batchSize : Option Int)
    (nGpus : Nat) : Except PyError (List (Option Nat) × List (Option α)) :=
  let n := obs.length
  match planJobs n nGpus batchSize with
  | .error e => .error e
  | .ok rs =>
    match roundRobin nGpus rs with
    | .error e => .error e
    | .ok qs =>
      let b := qs.foldl (fun bufs q => workerRunF dist refs obs fails q bufs)
        (initBufs α n)
      .ok (b.outIdx, b.outDist)

/-- Modelled from the spec (section 4.1): the haversine great-circle distance on
a sphere of radius `R`, coordinates in radians, with the mandatory `min 1`
clamp before `asin`. -/
noncomputable def haversineDist (R : ℝ) (p q : ℝ × ℝ) : ℝ :=
  let a := Real.sin ((q.1 - p.1) / 2) ^ 2 +
    Real.cos p.1 * Real.cos q.1 * Real.sin ((q.2 - p.2) / 2) ^ 2
  2 * R * Real.arcsin (min 1 (Real.sqrt a))

/-- A concrete computable distance on integer points, used to evaluate the
engine on concrete inputs. -/
def distInt (p q : Int × Int) : Int :=
  (p.1 - q.1) ^ 2 + (p.2 - q.2) ^ 2

/-- Membership of an observation index in a job's half-open range. -/
def inRange (r : Nat × Nat) (i : Nat) : Bool :=
  decide (r.1 ≤ i) && decide (i < r.2)

/-! ### Properties of the strict-less-than minimum combination -/

theorem combineMin_none_right {α : Type} [LinearOrder α]
    (a : Option (Cand α)) : combineMin a none = a := by
  cases a <;> rfl

theorem combineMin_assoc {α : Type} [LinearOrder α]
    (a b c : Option (Cand α)) :
    combineMin (combineMin a b) c = combineMin a (combineMin b c) := by
  rcases a with _ | a
  · rfl
  rcases b with _ | b
  · rfl
  rcases c with _ | c
  · simp [combineMin_none_right]
  by_cases hba : b.2 < a.2 <;> by_cases hcb : c.2 < b.2
  · have hca : c.2 < a.2 := lt_trans hcb hba
    simp [combineMin, hba, hcb, hca]
  · simp [combineMin, hba, hcb]
  · simp [combineMin, hba, hcb]
  · have hca : ¬c.2 < a.2 := not_lt.2 (le_trans (not_lt.1 hba) (not_lt.1 hcb))
    simp [combineMin, hba, hcb, hca]

theorem foldl_combineMin {α : Type} [LinearOrder α]
    (l : List (Option (Cand α))) (acc : Option (Cand α)) :
    l.foldl combineMin acc = combineMin acc (l.foldl combineMin none) := by
  induction l generalizing acc with
  | nil => simp [combineMin_none_right]
  | cons x xs ih =>
    simp only [List.foldl_cons]
    rw [ih (combineMin acc x), ih (combineMin none x), combineMin_assoc]
    rfl

theorem firstMin_eq_foldl {α : Type} [LinearOrder α] (l : List (Cand α)) :
    firstMin l = (l.map some).foldl combineMin none := by
  simp [firstMin, List.foldl_map]

theorem firstMin_cons {α : Type} [LinearOrder α] (x : Cand α) (xs : List (Cand α)) :
    firstMin (x :: xs) = combineMin (some x) (firstMin xs) := by
  rw [firstMin_eq_foldl, firstMin_eq_foldl, List.map_cons, List.foldl_cons,
    foldl_combineMin]
  rfl

theorem firstMin_append {α : Type} [LinearOrder α] (xs ys : List (Cand α)) :
    firstMin (xs ++ ys) = combineMin (firstMin xs) (firstMin ys) := by
  rw [firstMin_eq_foldl, firstMin_eq_foldl, firstMin_eq_foldl, List.map_append,
    List.foldl_append, foldl_combineMin]

theorem firstMin_eq_none_iff {α : Type} [LinearOrder α] (l : List (Cand α)) :
    firstMin l = none ↔ l = [] := by
  cases l with
  | nil => simp [firstMin]
  | cons x xs =>
    rw [firstMin_cons]
    cases hxs : firstMin xs with
    | none => simp [combineMin]
    | some b =>
      simp only [combineMin]
      split_ifs <;> simp

theorem firstMin_spec {α : Type} [LinearOrder α] {l : List (Cand α)} {c : Cand α}
    (h : firstMin l = some c) : c ∈ l ∧ ∀ y ∈ l, c.2 ≤ y.2 := by
  induction l generalizing c with
  | nil => simp [firstMin] at h
  | cons x xs ih =>
    rw [firstMin_cons] at h
    cases hxs : firstMin xs with
    | none =>
      rw [hxs] at h
      rw [combineMin_none_right, Option.some_inj] at h
      subst h
      have hnil : xs = [] := (firstMin_eq_none_iff xs).1 hxs
      subst hnil
      simp
    | some b =>
      rw [hxs] at h
      obtain ⟨hbmem, hbmin⟩ := ih hxs
      simp only [combineMin] at h
      split_ifs at h with hlt <;> rw [Option.some_inj] at h <;> subst h
      · exact ⟨List.mem_cons_of_mem _ hbmem, by
          intro y hy
          rcases List.mem_cons.1 hy with rfl | hy
          · exact le_of_lt hlt
          · exact hbmin y hy⟩
      · exact ⟨List.mem_cons_self _ _, by
          intro y hy
          rcases List.mem_cons.1 hy with rfl | hy
          · exact le_refl _
          · exact le_trans (not_lt.1 hlt) (hbmin y hy)⟩

theorem firstMin_first {α : Type} [LinearOrder α] {l : List (Cand α)}
    (hp : l.Pairwise (fun p q => p.1 < q.1)) {c : Cand α}
    (h : firstMin l = some c) : ∀ y ∈ l, y.1 < c.1 → c.2 < y.2 := by
  induction l generalizing c with
  | nil => simp [firstMin] at h
  | cons x xs ih =>
    rw [List.pairwise_cons] at hp
    obtain ⟨hx, hxs'⟩ := hp
    rw [firstMin_cons] at h
    cases hxs : firstMin xs with
    | none =>
      rw [hxs, combineMin_none_right, Option.some_inj] at h
      subst h
      have hnil : xs = [] := (firstMin_eq_none_iff xs).1 hxs
      subst hnil
      intro y hy hlt
      rcases List.mem_cons.1 hy with rfl | hy
      · omega
      · simp at hy
    | some b =>
      rw [hxs] at h
      simp only [combineMin] at h
      split_ifs at h with hlt <;> rw [Option.some_inj] at h <;> subst h
      · intro y hy hyk
        rcases List.mem_cons.1 hy with rfl | hy
        · exact hlt
        · exact ih hxs' hxs y hy hyk
      · intro y hy hyk
        rcases List.mem_cons.1 hy with rfl | hy
        · omega
        · exact absurd hyk (not_lt.2 (le_of_lt (hx y hy)))

/-! ### Properties of the index tagging -/

theorem enumD_length {β : Type} (n : Nat) (l : List β) :
    (enumD n l).length = l.length := by
  induction l generalizing n with
  | nil => rfl
  | cons x xs ih => simp [enumD, ih]

theorem mem_enumD {β : Type} {l : List β} {n k : Nat} {d : β} :
    (k, d) ∈ enumD n l ↔ n ≤ k ∧ l[k - n]? = some d := by
  induction l generalizing n with
  | nil => simp [enumD]
  | cons x xs ih =>
    simp only [enumD, List.mem_cons, Prod.mk.injEq, ih]
    constructor
    · rintro (⟨rfl, rfl⟩ | ⟨hnk, hget⟩)
      · simp
      · refine ⟨by omega, ?_⟩
        have : k - n = (k - (n + 1)) + 1 := by omega
        rw [this, List.getElem?_cons_succ]
        exact hget
    · rintro ⟨hnk, hget⟩
      rcases Nat.eq_or_lt_of_le hnk with rfl | hlt
      · left
        simp at hget
        exact ⟨rfl, hget.symm⟩
      · right
        refine ⟨hlt, ?_⟩
        have : k - n = (k - (n + 1)) + 1 := by omega
        rw [this, List.getElem?_cons_succ] at hget
        exact hget

theorem enumD_key_lb {β : Type} {l : List β} {n : Nat} {p : Nat × β}
    (h : p ∈ enumD n l) : n ≤ p.1 := by
  obtain ⟨k, d⟩ := p
  exact (mem_enumD.1 h).1

theorem enumD_pairwise {β : Type} (n : Nat) (l : List β) :
    (enumD n l).Pairwise (fun p q => p.1 < q.1) := by
  induction l generalizing n with
  | nil => simp [enumD]
  | cons x xs ih =>
    simp only [enumD, List.pairwise_cons]
    exact ⟨fun y hy => lt_of_lt_of_le (Nat.lt_succ_self n) (enumD_key_lb hy), ih (n + 1)⟩

theorem enumD_append_singleton {β : Type} (n : Nat) (l : List β) (x : β) :
    enumD n (l ++ [x]) = enumD n l ++ [(n + l.length, x)] := by
  induction l generalizing n with
  | nil => simp [enumD]
  | cons y ys ih =>
    simp only [List.cons_append, enumD, List.length_cons, List.append_eq]
    rw [ih (n + 1)]
    have hnn : n + 1 + ys.length = n + (ys.length + 1) := by omega
    rw [hnn]

/-! ### The two-phase reduction equals one first-minimum scan -/

theorem chunks_foldl_eq_firstMin {α : Type} [LinearOrder α]
    (l : List (Cand α)) (c : Nat) (n : Nat) :
    ((List.range n).map (fun u => firstMin ((l.drop (u * c)).take c))).foldl
      combineMin none = firstMin (l.take (n * c)) := by
  induction n with
  | zero => simp [firstMin]
  | succ n ih =>
    rw [List.range_succ, List.map_append, List.foldl_append, ih]
    show combineMin (firstMin (l.take (n * c))) (firstMin ((l.drop (n * c)).take c)) = _
    rw [← firstMin_append, ← List.take_add, Nat.succ_mul]

theorem nearestRef_eq_firstMin {P α : Type} [LinearOrder α] (dist : P → P → α)
    (refs : List P) (o : P) :
    nearestRef dist refs o = firstMin (enumD 0 (refs.map (fun r => dist o r))) := by
  unfold nearestRef
  rw [chunks_foldl_eq_firstMin]
  congr 1
  apply List.take_of_length_le
  rw [enumD_length, List.length_map]
  show refs.length ≤ blockCount * ((refs.length + (blockCount - 1)) / blockCount)
  have h := Nat.div_add_mod (refs.length + (blockCount - 1)) blockCount
  have h2 : (refs.length + (blockCount - 1)) % blockCount < blockCount := by
    exact Nat.mod_lt _ (by simp [blockCount])
  simp only [blockCount] at *
  omega

theorem nearestRef_spec {P α : Type} [LinearOrder α] (dist : P → P → α)
    (refs : List P) (o : P) (h : refs ≠ []) :
    ∃ k, ∃ hk : k < refs.length,
      nearestRef dist refs o = some (k, dist o refs[k]) ∧
      (∀ r, ∀ hr : r < refs.length, dist o refs[k] ≤ dist o refs[r]) ∧
      (∀ r, ∀ hr : r < refs.length, r < k → dist o refs[r] ≠ dist o refs[k]) := by
  rw [nearestRef_eq_firstMin]
  set cands := enumD 0 (refs.map (fun r => dist o r)) with hcands
  have hlen : cands.length = refs.length := by
    rw [hcands, enumD_length, List.length_map]
  have hne : cands ≠ [] := by
    intro hx
    rw [hx] at hlen
    exact h (List.eq_nil_of_length_eq_zero hlen.symm)
  cases hfm : firstMin cands with
  | none => exact absurd ((firstMin_eq_none_iff cands).1 hfm) hne
  | some c =>
    obtain ⟨hcmem, hcmin⟩ := firstMin_spec hfm
    obtain ⟨k, d⟩ := c
    obtain ⟨-, hget⟩ := mem_enumD.1 (hcands ▸ hcmem)
    simp only [Nat.sub_zero] at hget
    have hk : k < refs.length := by
      by_contra hge
      rw [List.getElem?_eq_none (by rw [List.length_map]; omega)] at hget
      exact Option.noConfusion hget
    rw [List.getElem?_eq_getElem (by rw [List.length_map]; exact hk),
      List.getElem_map, Option.some_inj] at hget
    subst hget
    refine ⟨k, hk, rfl, ?_, ?_⟩
    · intro r hr
      have hmem : (r, dist o refs[r]) ∈ cands := by
        rw [hcands, mem_enumD]
        exact ⟨Nat.zero_le r, by
          rw [Nat.sub_zero, List.getElem?_eq_getElem (by rw [List.length_map]; exact hr),
            List.getElem_map]⟩
      exact hcmin _ hmem
    · intro r hr hrk
      have hmem : (r, dist o refs[r]) ∈ cands := by
        rw [hcands, mem_enumD]
        exact ⟨Nat.zero_le r, by
          rw [Nat.sub_zero, List.getElem?_eq_getElem (by rw [List.length_map]; exact hr),
            List.getElem_map]⟩
      have := firstMin_first (hcands ▸ enumD_pairwise 0 (refs.map (fun r => dist o r)))
        hfm _ hmem hrk
      exact fun he => absurd (he ▸ this) (lt_irrefl _)

/-! ### Structure of the planned job ranges -/

theorem mkRanges_length (size batch nJobs : Nat) :
    (mkRanges size batch nJobs).length = nJobs := by
  simp [mkRanges]

theorem mkRanges_getElem (size batch nJobs : Nat) (j : Nat)
    (hj : j < (mkRanges size batch nJobs).length) :
    (mkRanges size batch nJobs)[j] =
      (j * batch, if j = nJobs - 1 then size else (j + 1) * batch) := by
  simp only [mkRanges] at hj ⊢
  rw [List.getElem_map, List.getElem_range]

theorem jobCount_pos {size batch : Nat} (hN : 0 < size) (hS : 0 < batch) :
    0 < size / min batch size :=
  (Nat.one_le_div_iff (by omega)).2 (min_le_right _ _)

theorem lastStart_lt {size batch : Nat} (hN : 0 < size) (hS : 0 < batch) :
    (size / min batch size - 1) * batch < size := by
  by_cases hSN : batch ≤ size
  · rw [min_eq_left hSN]
    have h1 : size / batch * batch ≤ size := Nat.div_mul_le_self size batch
    have h2 : (size / batch - 1) * batch = size / batch * batch - batch :=
      Nat.sub_one_mul _ _
    generalize size / batch * batch = A at h1 h2
    omega
  · rw [min_eq_right (by omega), Nat.div_self hN]
    simpa using hN

theorem midEnd_le {size batch : Nat} (hN : 0 < size) (hS : 0 < batch)
    {j : Nat} (hj : j + 1 < size / min batch size) :
    (j + 1) * batch ≤ size := by
  have h1 : j + 1 ≤ size / min batch size - 1 := by omega
  calc (j + 1) * batch ≤ (size / min batch size - 1) * batch :=
        Nat.mul_le_mul_right _ h1
    _ ≤ size := le_of_lt (lastStart_lt hN hS)

theorem coverStart_le {batch : Nat} (hS : 0 < batch) (i J : Nat) :
    min (i / batch) (J - 1) * batch ≤ i :=
  le_trans (Nat.mul_le_mul_right _ (min_le_left _ _)) (Nat.div_mul_le_self i batch)

theorem coverEnd_gt {batch : Nat} (hS : 0 < batch) {i J : Nat}
    (hne : min (i / batch) (J - 1) ≠ J - 1) :
    i < (min (i / batch) (J - 1) + 1) * batch := by
  have hmin : min (i / batch) (J - 1) = i / batch := by
    rcases le_total (i / batch) (J - 1) with h | h
    · exact min_eq_left h
    · exact absurd (min_eq_right h) hne
  rw [hmin, Nat.add_mul, Nat.one_mul]
  have h := Nat.div_add_mod i batch
  have h2 : i % batch < batch := Nat.mod_lt _ hS
  rw [Nat.mul_comm batch (i / batch)] at h
  generalize i / batch * batch = A at h ⊢
  omega

/-- Each planned range lies inside `[0, size)` and is well formed. -/
theorem mkRanges_wf {size batch : Nat} (hN : 0 < size) (hS : 0 < batch)
    {r : Nat × Nat} (hr : r ∈ mkRanges size batch (size / min batch size)) :
    r.1 ≤ r.2 ∧ r.2 ≤ size := by
  obtain ⟨j, hj, hget⟩ := List.getElem_of_mem hr
  rw [mkRanges_getElem] at hget
  rw [mkRanges_length] at hj
  subst hget
  by_cases hlast : j = size / min batch size - 1
  · simp only [hlast, if_pos rfl]
    exact ⟨le_of_lt (lastStart_lt hN hS), le_refl _⟩
  · simp only [if_neg hlast]
    have hj1 : j + 1 < size / min batch size := by
      have := jobCount_pos hN hS
      omega
    exact ⟨Nat.mul_le_mul_right _ (by omega), midEnd_le hN hS hj1⟩

/-- Coverage: every observation index lies in some planned range. -/
theorem mkRanges_cover {size batch : Nat} (hN : 0 < size) (hS : 0 < batch)
    {i : Nat} (hi : i < size) :
    ∃ j, ∃ hj : j < (mkRanges size batch (size / min batch size)).length,
      (mkRanges size batch (size / min batch size))[j].1 ≤ i ∧
      i < (mkRanges size batch (size / min batch size))[j].2 := by
  set J := size / min batch size with hJ
  have hJpos : 0 < J := jobCount_pos hN hS
  refine ⟨min (i / batch) (J - 1), ?_, ?_⟩
  · rw [mkRanges_length]
    have : min (i / batch) (J - 1) ≤ J - 1 := min_le_right _ _
    omega
  · rw [mkRanges_getElem]
    constructor
    · exact coverStart_le hS i J
    · by_cases hlast : min (i / batch) (J - 1) = J - 1
      · rw [if_pos hlast]
        exact hi
      · rw [if_neg hlast]
        exact coverEnd_gt hS hlast

/-- Disjointness: no observation index lies in two distinct planned ranges. -/
theorem mkRanges_disjoint {size batch : Nat} (hN : 0 < size) (hS : 0 < batch)
    {i j j' : Nat} (hj : j < (mkRanges size batch (size / min batch size)).length)
    (hj' : j' < (mkRanges size batch (size / min batch size)).length)
    (hin : (mkRanges size batch (size / min batch size))[j].1 ≤ i ∧
      i < (mkRanges size batch (size / min batch size))[j].2)
    (hin' : (mkRanges size batch (size / min batch size))[j'].1 ≤ i ∧
      i < (mkRanges size batch (size / min batch size))[j'].2) :
    j = j' := by
  rw [mkRanges_length] at hj hj'
  rw [mkRanges_getElem _ _ _ _ (by rw [mkRanges_length]; exact hj)] at hin
  rw [mkRanges_getElem _ _ _ _ (by rw [mkRanges_length]; exact hj')] at hin'
  by_contra hne
  have key : ∀ a b : Nat, a < size / min batch size → b < size / min batch size →
      a < b → ¬((a * batch ≤ i ∧
        i < if a = size / min batch size - 1 then size else (a + 1) * batch) ∧
        (b * batch ≤ i ∧
        i < if b = size / min batch size - 1 then size else (b + 1) * batch)) := by
    intro a b ha hb hab
    rintro ⟨⟨-, hend⟩, ⟨hstart, -⟩⟩
    have hanot : a ≠ size / min batch size - 1 := by omega
    rw [if_neg hanot] at hend
    have : (a + 1) * batch ≤ b * batch := Nat.mul_le_mul_right _ (by omega)
    omega
  rcases Nat.lt_or_ge j j' with h | h
  · exact key j j' hj hj' h ⟨hin, hin'⟩
  · exact key j' j hj' hj (by omega) ⟨hin', hin⟩

/-! ### Slot-level behavior of the slice writes -/

theorem length_writeSlice {β : Type} (buf : List β) (s : Nat) (vals : List β)
    (h : s + vals.length ≤ buf.length) :
    (writeSlice buf s vals).length = buf.length := by
  simp only [writeSlice, List.length_append, List.length_take, List.length_drop]
  omega

theorem writeSlice_getElem?_left {β : Type} (buf : List β) (s : Nat)
    (vals : List β) {i : Nat} (hi : i < s) (hs : s ≤ buf.length) :
    (writeSlice buf s vals)[i]? = buf[i]? := by
  simp only [writeSlice, List.append_assoc]
  rw [List.getElem?_append]
  rw [if_pos (by simp only [List.length_take]; omega)]
  exact List.getElem?_take_of_lt hi

theorem writeSlice_getElem?_mid {β : Type} (buf : List β) (s : Nat)
    (vals : List β) {i : Nat} (hi1 : s ≤ i) (hi2 : i < s + vals.length)
    (hs : s ≤ buf.length) :
    (writeSlice buf s vals)[i]? = vals[i - s]? := by
  simp only [writeSlice, List.append_assoc]
  rw [List.getElem?_append_right (by simp only [List.length_take]; omega)]
  rw [List.getElem?_append]
  rw [if_pos (by simp only [List.length_take]; omega)]
  congr 1
  simp only [List.length_take]
  omega

theorem writeSlice_getElem?_right {β : Type} (buf : List β) (s : Nat)
    (vals : List β) {i : Nat} (hi : s + vals.length ≤ i) (hs : s ≤ buf.length) :
    (writeSlice buf s vals)[i]? = buf[i]? := by
  simp only [writeSlice, List.append_assoc]
  rw [List.getElem?_append_right (by simp only [List.length_take]; omega)]
  rw [List.getElem?_append_right (by simp only [List.length_take]; omega)]
  rw [List.getElem?_drop]
  congr 1
  simp only [List.length_take]
  omega

/-! ### Slot-level behavior of one job and of folds of jobs -/

theorem applyJob_resLength {P α : Type} [LinearOrder α] (dist : P → P → α)
    (refs obs : List P) (r : Nat × Nat) (hwf : r.1 ≤ r.2 ∧ r.2 ≤ obs.length) :
    (((obs.drop r.1).take (r.2 - r.1)).map (fun o => nearestRef dist refs o)).length
      = r.2 - r.1 := by
  simp only [List.length_map, List.length_take, List.length_drop]
  omega

theorem applyJob_length {P α : Type} [LinearOrder α] (dist : P → P → α)
    (refs obs : List P) (bufs : Buffers α) (r : Nat × Nat)
    (hwf : r.1 ≤ r.2 ∧ r.2 ≤ obs.length)
    (hb1 : bufs.outIdx.length = obs.length)
    (hb2 : bufs.outDist.length = obs.length) :
    (applyJob dist refs obs bufs r).outIdx.length = obs.length ∧
    (applyJob dist refs obs bufs r).outDist.length = obs.length := by
  simp only [applyJob]
  constructor <;>
    rw [length_writeSlice _ _ _ (by
      rw [List.length_map, applyJob_resLength dist refs obs r hwf]; omega)] <;>
    assumption

theorem applyJob_getElem?_out {P α : Type} [LinearOrder α] (dist : P → P → α)
    (refs obs : List P) (bufs : Buffers α) (r : Nat × Nat)
    (hwf : r.1 ≤ r.2 ∧ r.2 ≤ obs.length)
    (hb1 : bufs.outIdx.length = obs.length)
    (hb2 : bufs.outDist.length = obs.length)
    {i : Nat} (hi : ¬(r.1 ≤ i ∧ i < r.2)) :
    (applyJob dist refs obs bufs r).outIdx[i]? = bufs.outIdx[i]? ∧
    (applyJob dist refs obs bufs r).outDist[i]? = bufs.outDist[i]? := by
  have hlen := applyJob_resLength dist refs obs r hwf
  rcases Nat.lt_or_ge i r.1 with hlt | hge
  · constructor <;>
      exact writeSlice_getElem?_left _ _ _ hlt (by omega)
  · have hge2 : r.2 ≤ i := by omega
    constructor <;>
      exact writeSlice_getElem?_right _ _ _
        (by rw [List.length_map, hlen]; omega) (by omega)

theorem applyJob_getElem?_in {P α : Type} [LinearOrder α] (dist : P → P → α)
    (refs obs : List P) (bufs : Buffers α) (r : Nat × Nat)
    (hwf : r.1 ≤ r.2 ∧ r.2 ≤ obs.length)
    (hb1 : bufs.outIdx.length = obs.length)
    (hb2 : bufs.outDist.length = obs.length)
    {i : Nat} (hi1 : r.1 ≤ i) (hi2 : i < r.2) :
    (applyJob dist refs obs bufs r).outIdx[i]? =
      (obs[i]?).map (fun o => (nearestRef dist refs o).map (fun p => p.1)) ∧
    (applyJob dist refs obs bufs r).outDist[i]? =
      (obs[i]?).map (fun o => (nearestRef dist refs o).map (fun p => p.2)) := by
  have hlen := applyJob_resLength dist refs obs r hwf
  have hslice : ((obs.drop r.1).take (r.2 - r.1))[i - r.1]? = obs[i]? := by
    rw [List.getElem?_take_of_lt (by omega), List.getElem?_drop]
    congr 1
    omega
  simp only [applyJob]
  constructor <;>
    (rw [writeSlice_getElem?_mid _ _ _ hi1
        (by rw [List.length_map, hlen]; omega) (by omega)]
     rw [List.getElem?_map, List.getElem?_map, hslice]
     cases obs[i]? <;> rfl)

theorem foldl_applyJob_length {P α : Type} [LinearOrder α] (dist : P → P → α)
    (refs obs : List P) (jl : List (Nat × Nat))
    (hwf : ∀ r ∈ jl, r.1 ≤ r.2 ∧ r.2 ≤ obs.length) (bufs : Buffers α)
    (hb1 : bufs.outIdx.length = obs.length)
    (hb2 : bufs.outDist.length = obs.length) :
    (jl.foldl (applyJob dist refs obs) bufs).outIdx.length = obs.length ∧
    (jl.foldl (applyJob dist refs obs) bufs).outDist.length = obs.length := by
  induction jl generalizing bufs with
  | nil => exact ⟨hb1, hb2⟩
  | cons r rest ih =>
    have hr := hwf r (List.mem_cons_self _ _)
    obtain ⟨h1, h2⟩ := applyJob_length dist refs obs bufs r hr hb1 hb2
    exact ih (fun x hx => hwf x (List.mem_cons_of_mem _ hx)) _ h1 h2

theorem foldl_applyJob_frame {P α : Type} [LinearOrder α] (dist : P → P → α)
    (refs obs : List P) (jl : List (Nat × Nat))
    (hwf : ∀ r ∈ jl, r.1 ≤ r.2 ∧ r.2 ≤ obs.length) (bufs : Buffers α)
    (hb1 : bufs.outIdx.length = obs.length)
    (hb2 : bufs.outDist.length = obs.length)
    {i : Nat} (hout : ∀ r ∈ jl, ¬(r.1 ≤ i ∧ i < r.2)) :
    (jl.foldl (applyJob dist refs obs) bufs).outIdx[i]? = bufs.outIdx[i]? ∧
    (jl.foldl (applyJob dist refs obs) bufs).outDist[i]? = bufs.outDist[i]? := by
  induction jl generalizing bufs with
  | nil => exact ⟨rfl, rfl⟩
  | cons r rest ih =>
    have hr := hwf r (List.mem_cons_self _ _)
    obtain ⟨h1, h2⟩ := applyJob_length dist refs obs bufs r hr hb1 hb2
    obtain ⟨e1, e2⟩ := applyJob_getElem?_out dist refs obs bufs r hr hb1 hb2
      (hout r (List.mem_cons_self _ _))
    obtain ⟨f1, f2⟩ := ih (fun x hx => hwf x (List.mem_cons_of_mem _ hx)) _ h1 h2
      (fun x hx => hout x (List.mem_cons_of_mem _ hx))
    exact ⟨f1.trans e1, f2.trans e2⟩

theorem foldl_applyJob_covered {P α : Type} [LinearOrder α] (dist : P → P → α)
    (refs obs : List P) (jl : List (Nat × Nat))
    (hwf : ∀ r ∈ jl, r.1 ≤ r.2 ∧ r.2 ≤ obs.length) (bufs : Buffers α)
    (hb1 : bufs.outIdx.length = obs.length)
    (hb2 : bufs.outDist.length = obs.length)
    {i : Nat} (hcov : ∃ r ∈ jl, r.1 ≤ i ∧ i < r.2) :
    (jl.foldl (applyJob dist refs obs) bufs).outIdx[i]? =
      (obs[i]?).map (fun o => (nearestRef dist refs o).map (fun p => p.1)) ∧
    (jl.foldl (applyJob dist refs obs) bufs).outDist[i]? =
      (obs[i]?).map (fun o => (nearestRef dist refs o).map (fun p => p.2)) := by
  induction jl generalizing bufs with
  | nil => obtain ⟨r, hr, -⟩ := hcov; simp at hr
  | cons r rest ih =>
    have hr := hwf r (List.mem_cons_self _ _)
    obtain ⟨h1, h2⟩ := applyJob_length dist refs obs bufs r hr hb1 hb2
    by_cases hrest : ∃ x ∈ rest, x.1 ≤ i ∧ i < x.2
    · exact ih (fun x hx => hwf x (List.mem_cons_of_mem _ hx)) _ h1 h2 hrest
    · push_neg at hrest
      obtain ⟨x, hx, hxin⟩ := hcov
      rcases List.mem_cons.1 hx with rfl | hx'
      · obtain ⟨e1, e2⟩ := applyJob_getElem?_in dist refs obs bufs x hr hb1 hb2
          hxin.1 hxin.2
        obtain ⟨f1, f2⟩ := foldl_applyJob_frame dist refs obs rest
          (fun y hy => hwf y (List.mem_cons_of_mem _ hy)) _ h1 h2
          (fun y hy => by
            intro hc
            exact absurd hc.2 (by have := hrest y hy hc.1; omega))
        exact ⟨f1.trans e1, f2.trans e2⟩
      · exact absurd hxin.2 (by have := hrest x hx' hxin.1; omega)

/-! ### Characterizations of the planning phase -/

theorem resolveBatchVal_auto_nonneg (size nGpus : Nat) :
    0 ≤ resolveBatchVal size nGpus none :=
  Int.tdiv_nonneg (Int.ofNat_nonneg _) (Int.ofNat_nonneg _)

theorem planJobs_ok_of_pos {size nGpus : Nat} {bS : Option Int}
    (hN : 0 < size) (hb : 1 ≤ resolveBatchVal size nGpus bS) :
    planJobs size nGpus bS = .ok (mkRanges size (resolveBatchVal size nGpus bS).toNat
      (size / min (resolveBatchVal size nGpus bS).toNat size)) := by
  have hguard : ¬(bS = none ∧ nGpus = 0) := by
    rintro ⟨rfl, rfl⟩
    have hz : resolveBatchVal size 0 none = 0 := by
      simp [resolveBatchVal]
    rw [hz] at hb
    omega
  set bi := resolveBatchVal size nGpus bS with hbi
  have hcast : min bi (size : Int) = ((min bi.toNat size : Nat) : Int) := by
    rw [Nat.cast_min]
    congr 1
    exact (Int.toNat_of_nonneg (by omega)).symm
  have hmne : ¬(min bi (size : Int) = 0) := by
    rcases le_total bi (size : Int) with h | h
    · rw [min_eq_left h]; omega
    · rw [min_eq_right h]; omega
  simp only [planJobs, if_neg hguard, ← hbi, if_neg hmne]
  congr 1
  rw [hcast, ← Int.ofNat_tdiv, Int.toNat_natCast]

theorem planJobs_err_of_min_zero {size nGpus : Nat} {bS : Option Int}
    (h : min (resolveBatchVal size nGpus bS) (size : Int) = 0) :
    planJobs size nGpus bS = .error .zeroDivisionError := by
  by_cases hguard : bS = none ∧ nGpus = 0
  · simp [planJobs, hguard]
  · simp only [planJobs, if_neg hguard, h]
    rfl

theorem planJobs_ok_of_neg {size nGpus : Nat} {bS : Option Int}
    (hb : resolveBatchVal size nGpus bS < 0) :
    planJobs size nGpus bS = .ok [] := by
  have hguard : ¬(bS = none ∧ nGpus = 0) := by
    rintro ⟨rfl, -⟩
    exact absurd hb (not_lt.2 (resolveBatchVal_auto_nonneg _ _))
  have hm : min (resolveBatchVal size nGpus bS) (size : Int) =
      resolveBatchVal size nGpus bS := min_eq_left (by omega)
  have hmne : ¬(min (resolveBatchVal size nGpus bS) (size : Int) = 0) := by omega
  simp only [planJobs, if_neg hguard, if_neg hmne]
  have htd : (Int.tdiv (size : Int) (min (resolveBatchVal size nGpus bS)
      (size : Int))).toNat = 0 := by
    rw [Int.toNat_eq_zero, hm]
    exact Int.tdiv_nonpos (Int.ofNat_nonneg _) (le_of_lt hb)
  rw [htd]
  rfl

theorem planJobs_never_config (size nGpus : Nat) (bS : Option Int) :
    planJobs size nGpus bS ≠ .error .configurationError := by
  simp only [planJobs]
  split_ifs <;> simp

/-! ### Closed form of the single-device path -/

theorem get_nearest_single {P α : Type} [LinearOrder α] (dist : P → P → α)
    (obs refs : List P) (bS : Option Int) (nGpus : Nat) :
    get_nearest dist obs refs bS false nGpus =
      .ok (obs.map (fun o => (nearestRef dist refs o).map (fun p => p.1)),
        obs.map (fun o => (nearestRef dist refs o).map (fun p => p.2))) := by
  simp only [get_nearest, if_pos rfl, applyJob, initBufs, writeSlice,
    List.drop_zero, Nat.sub_zero, List.take_length, List.take_zero,
    List.nil_append, Nat.zero_add, List.length_map, List.drop_replicate,
    Nat.sub_self, List.replicate_zero, List.append_nil, List.map_map]
  rfl

/-! ### The round-robin queue assignment -/

theorem mod_succ_eq (k nq : Nat) (h : 0 < nq) :
    (k + 1) % nq = if k % nq + 1 = nq then 0 else k % nq + 1 := by
  have hd := Nat.div_add_mod k nq
  have hm : k % nq < nq := Nat.mod_lt _ h
  by_cases hc : k % nq + 1 = nq
  · rw [if_pos hc]
    have he : k + 1 = nq * (k / nq + 1) := by rw [Nat.mul_succ]; omega
    rw [he, Nat.mul_mod_right]
  · rw [if_neg hc]
    have he : k + 1 = nq * (k / nq) + (k % nq + 1) := by omega
    rw [he, Nat.mul_add_mod, Nat.mod_eq_of_lt (by omega)]

theorem div_succ_eq (k nq : Nat) (h : 0 < nq) :
    (k + 1) / nq = if k % nq + 1 = nq then k / nq + 1 else k / nq := by
  have hd := Nat.div_add_mod k nq
  have hm : k % nq < nq := Nat.mod_lt _ h
  by_cases hc : k % nq + 1 = nq
  · rw [if_pos hc]
    have he : k + 1 = nq * (k / nq + 1) + 0 := by rw [Nat.mul_succ]; omega
    rw [he, Nat.mul_add_div h, Nat.div_eq_of_lt h]
  · rw [if_neg hc]
    have he : k + 1 = nq * (k / nq) + (k % nq + 1) := by omega
    rw [he, Nat.mul_add_div h,
      Nat.div_eq_of_lt (show k % nq + 1 < nq by omega), Nat.add_zero]

/-- The queue contents the source's round-robin loop produces: queue `q` holds,
in creation order, exactly the jobs whose creation index is congruent to `q`
modulo the queue count. -/
def rrSpec {β : Type} (nq : Nat) (jobs : List β) : List (List β) :=
  (List.range nq).map
    (fun q => ((enumD 0 jobs).filter (fun p => p.1 % nq == q)).map (fun p => p.2))

theorem rrSpec_length {β : Type} (nq : Nat) (jobs : List β) :
    (rrSpec nq jobs).length = nq := by
  simp [rrSpec]

theorem rrSpec_getElem {β : Type} (nq : Nat) (jobs : List β) (q : Nat)
    (hq : q < (rrSpec nq jobs).length) :
    (rrSpec nq jobs)[q] =
      ((enumD 0 jobs).filter (fun p => p.1 % nq == q)).map (fun p => p.2) := by
  simp only [rrSpec] at hq ⊢
  rw [List.getElem_map, List.getElem_range]

theorem rrSpec_nil {β : Type} (nq : Nat) :
    rrSpec nq ([] : List β) = List.replicate nq [] := by
  apply List.ext_getElem
  · simp [rrSpec_length]
  · intro n h1 h2
    rw [rrSpec_getElem]
    simp [enumD, List.getElem_replicate]

theorem rrSpec_append {β : Type} (nq : Nat) (hnq : 0 < nq) (l : List β) (x : β) :
    rrSpec nq (l ++ [x]) = appendAt (rrSpec nq l) (l.length % nq) x := by
  apply List.ext_getElem
  · simp [rrSpec_length, appendAt, List.length_set]
  · intro q h1 h2
    have hq : q < nq := by rw [rrSpec_length] at h1; exact h1
    rw [rrSpec_getElem]
    simp only [appendAt]
    rw [List.getElem_set]
    rw [enumD_append_singleton, List.filter_append, List.map_append]
    simp only [Nat.zero_add]
    by_cases hqq : l.length % nq = q
    · rw [if_pos hqq, List.getD_eq_getElem _ _ (by rw [rrSpec_length]; omega),
        rrSpec_getElem _ _ _ (by rw [rrSpec_length]; omega)]
      rw [List.filter_singleton]
      have hb : (((l.length, x).1 % nq == q) : Bool) = true := by
        simp [hqq]
      rw [hb, cond_true, hqq]
      rfl
    · rw [if_neg hqq, rrSpec_getElem _ _ _ (by rw [rrSpec_length]; omega)]
      rw [List.filter_singleton]
      have hb : (((l.length, x).1 % nq == q) : Bool) = false := by
        simpa using hqq
      rw [hb, cond_false]
      simp

theorem qid_step (nq : Nat) (hnq : 0 < nq) (len : Nat) :
    (if nq ≤ (if len = 0 then 0 else (len - 1) % nq + 1) then 0
      else (if len = 0 then 0 else (len - 1) % nq + 1)) = len % nq := by
  by_cases h0 : len = 0
  · subst h0
    have hne : ¬nq ≤ 0 := by omega
    simp [hne]
  · simp only [if_neg h0]
    have hr : (len - 1) % nq < nq := Nat.mod_lt _ hnq
    have hms := mod_succ_eq (len - 1) nq hnq
    have hlon : len - 1 + 1 = len := by omega
    rw [hlon] at hms
    by_cases hc : (len - 1) % nq + 1 = nq
    · rw [if_pos (by omega), hms, if_pos hc]
    · rw [if_neg (by omega), hms, if_neg hc]

theorem rrFold_spec {β : Type} (nq : Nat) (hnq : 1 ≤ nq) (jobs : List β) :
    jobs.foldl
      (fun st job =>
        let qid := if nq ≤ st.2 then 0 else st.2
        (appendAt st.1 qid job, qid + 1))
      (List.replicate nq ([] : List β), 0) =
    (rrSpec nq jobs, if jobs.length = 0 then 0 else (jobs.length - 1) % nq + 1) := by
  induction jobs using List.reverseRecOn with
  | nil => simp [rrSpec_nil]
  | append_singleton l x ih =>
    rw [List.foldl_append, ih]
    simp only [List.foldl_cons, List.foldl_nil]
    have hqid := qid_step nq hnq l.length
    rw [Prod.ext_iff]
    constructor
    · show appendAt (rrSpec nq l) _ x = rrSpec nq (l ++ [x])
      rw [hqid, rrSpec_append nq hnq l x]
    · show (if nq ≤ _ then 0 else _) + 1 = _
      rw [hqid]
      have hlen : (l ++ [x]).length = l.length + 1 := by simp
      rw [hlen, if_neg (by omega)]
      simp

theorem roundRobinCore_eq {β : Type} (nq : Nat) (hnq : 1 ≤ nq) (jobs : List β) :
    roundRobinCore nq jobs = rrSpec nq jobs := by
  unfold roundRobinCore
  rw [rrFold_spec nq hnq jobs]

theorem mem_roundRobinCore_iff {β : Type} (nq : Nat) (hnq : 1 ≤ nq)
    (jobs : List β) (x : β) :
    (∃ q ∈ roundRobinCore nq jobs, x ∈ q) ↔ x ∈ jobs := by
  rw [roundRobinCore_eq nq hnq]
  constructor
  · rintro ⟨q, hq, hx⟩
    obtain ⟨qi, hqi, rfl⟩ := List.getElem_of_mem hq
    rw [rrSpec_getElem] at hx
    obtain ⟨p, hp, rfl⟩ := List.mem_map.1 hx
    obtain ⟨k, d⟩ := p
    obtain ⟨-, hget⟩ := mem_enumD.1 (List.mem_filter.1 hp).1
    simp only [Nat.sub_zero] at hget
    obtain ⟨hk, hgk⟩ := List.getElem?_eq_some.1 hget
    exact hgk ▸ List.getElem_mem hk
  · intro hx
    obtain ⟨j, hj, rfl⟩ := List.getElem_of_mem hx
    have hjq : j % nq < (rrSpec nq jobs).length := by
      rw [rrSpec_length]
      exact Nat.mod_lt _ hnq
    refine ⟨(rrSpec nq jobs)[j % nq], List.getElem_mem hjq, ?_⟩
    rw [rrSpec_getElem]
    refine List.mem_map.2 ⟨(j, jobs[j]), ?_, rfl⟩
    refine List.mem_filter.2 ⟨?_, by simp⟩
    exact mem_enumD.2 ⟨Nat.zero_le _, by
      simpa using List.getElem?_eq_some.2 ⟨hj, rfl⟩⟩

theorem mem_flatten_roundRobinCore {β : Type} (nq : Nat) (hnq : 1 ≤ nq)
    (jobs : List β) (x : β) :
    x ∈ (roundRobinCore nq jobs).flatten ↔ x ∈ jobs := by
  rw [List.mem_flatten]
  exact mem_roundRobinCore_iff nq hnq jobs x

/-! ### The multi-device path computes the single-device result -/

theorem multi_fold_eq {P α : Type} [LinearOrder α] (dist : P → P → α)
    (obs refs : List P) (bS : Option Int) (G : Nat)
    (hN : 0 < obs.length) (hG : 1 ≤ G)
    (hb : 1 ≤ resolveBatchVal obs.length G bS) :
    get_nearest dist obs refs bS true G =
      .ok (obs.map (fun o => (nearestRef dist refs o).map (fun p => p.1)),
        obs.map (fun o => (nearestRef dist refs o).map (fun p => p.2))) := by
  have hS : 0 < (resolveBatchVal obs.length G bS).toNat := by omega
  have hplan := planJobs_ok_of_pos hN hb
  set S := (resolveBatchVal obs.length G bS).toNat with hSdef
  set rs := mkRanges obs.length S (obs.length / min S obs.length) with hrs
  have hrr : roundRobin G rs = .ok (roundRobinCore G rs) := by
    rw [roundRobin, if_neg (by rintro ⟨h0, -⟩; omega)]
  have hwf : ∀ r ∈ (roundRobinCore G rs).flatten, r.1 ≤ r.2 ∧ r.2 ≤ obs.length := by
    intro r hr
    exact mkRanges_wf hN hS ((mem_flatten_roundRobinCore G hG rs r).1 hr)
  have hlen1 : (initBufs α obs.length).outIdx.length = obs.length := by
    simp [initBufs]
  have hlen2 : (initBufs α obs.length).outDist.length = obs.length := by
    simp [initBufs]
  simp only [get_nearest, hplan, hrr, ← hrs]
  rw [if_neg (by simp)]
  rw [← List.foldl_flatten]
  congr 1
  have hcov : ∀ i, i < obs.length →
      ∃ r ∈ (roundRobinCore G rs).flatten, r.1 ≤ i ∧ i < r.2 := by
    intro i hi
    obtain ⟨j, hj, hjin⟩ := mkRanges_cover hN hS hi
    exact ⟨rs[j], (mem_flatten_roundRobinCore G hG rs _).2 (List.getElem_mem hj), hjin⟩
  have hflen := foldl_applyJob_length dist refs obs _ hwf _ hlen1 hlen2
  rw [Prod.ext_iff]
  constructor
  · apply List.ext_getElem?
    intro i
    rcases Nat.lt_or_ge i obs.length with hi | hi
    · rw [(foldl_applyJob_covered dist refs obs _ hwf _ hlen1 hlen2 (hcov i hi)).1]
      rw [List.getElem?_map]
    · rw [List.getElem?_eq_none (by rw [hflen.1]; omega),
        List.getElem?_eq_none (by rw [List.length_map]; omega)]
  · apply List.ext_getElem?
    intro i
    rcases Nat.lt_or_ge i obs.length with hi | hi
    · rw [(foldl_applyJob_covered dist refs obs _ hwf _ hlen1 hlen2 (hcov i hi)).2]
      rw [List.getElem?_map]
    · rw [List.getElem?_eq_none (by rw [hflen.2]; omega),
        List.getElem?_eq_none (by rw [List.length_map]; omega)]

theorem get_nearest_true_planErr {P α : Type} [LinearOrder α] (dist : P → P → α)
    (obs refs : List P) (bS : Option Int) (G : Nat) {e : PyError}
    (he : planJobs obs.length G bS = .error e) :
    get_nearest dist obs refs bS true G = .error e := by
  simp [get_nearest, he]

theorem get_nearest_true_rrErr {P α : Type} [LinearOrder α] (dist : P → P → α)
    (obs refs : List P) (bS : Option Int) (G : Nat) {rs : List (Nat × Nat)}
    {e : PyError} (hp : planJobs obs.length G bS = .ok rs)
    (he : roundRobin G rs = .error e) :
    get_nearest dist obs refs bS true G = .error e := by
  simp [get_nearest, hp, he]

theorem get_nearest_true_ok_inv {P α : Type} [LinearOrder α] (dist : P → P → α)
    (obs refs : List P) (bS : Option Int) (G : Nat)
    {pr : List (Option Nat) × List (Option α)}
    (hvalid : bS = none ∨ ∃ s : Int, 0 < s ∧ bS = some s)
    (h : get_nearest dist obs refs bS true G = .ok pr) :
    0 < obs.length ∧ 1 ≤ G ∧ 1 ≤ resolveBatchVal obs.length G bS := by
  have hbi0 : 0 ≤ resolveBatchVal obs.length G bS := by
    rcases hvalid with rfl | ⟨s, hs, rfl⟩
    · exact resolveBatchVal_auto_nonneg _ _
    · show (0 : Int) ≤ s
      omega
  have hmin : ¬min (resolveBatchVal obs.length G bS) (obs.length : Int) = 0 := by
    intro hm
    rw [get_nearest_true_planErr dist obs refs bS G
      (planJobs_err_of_min_zero hm)] at h
    exact Except.noConfusion h
  have hkey : 0 < obs.length ∧ 1 ≤ resolveBatchVal obs.length G bS := by
    have h1 : min (resolveBatchVal obs.length G bS) (obs.length : Int) ≤
        resolveBatchVal obs.length G bS := min_le_left _ _
    have h2 : min (resolveBatchVal obs.length G bS) (obs.length : Int) ≤
        (obs.length : Int) := min_le_right _ _
    have h3 : 0 ≤ min (resolveBatchVal obs.length G bS) (obs.length : Int) :=
      le_min hbi0 (Int.ofNat_nonneg _)
    set m := min (resolveBatchVal obs.length G bS) (obs.length : Int)
    omega
  refine ⟨hkey.1, ?_, hkey.2⟩
  by_contra hG
  have hG0 : G = 0 := by omega
  subst hG0
  rcases hvalid with rfl | ⟨s, hs, rfl⟩
  · rw [get_nearest_true_planErr dist obs refs none 0
      (show planJobs obs.length 0 none = .error .zeroDivisionError by
        simp [planJobs])] at h
    exact Except.noConfusion h
  · have hS : 0 < (resolveBatchVal obs.length 0 (some s)).toNat := by
      have := hkey.2
      omega
    have hp := planJobs_ok_of_pos hkey.1 hkey.2
    have hne : (mkRanges obs.length (resolveBatchVal obs.length 0 (some s)).toNat
        (obs.length / min (resolveBatchVal obs.length 0 (some s)).toNat obs.length)).isEmpty
        = false := by
      rw [List.isEmpty_eq_false_iff_exists_mem]
      have hJ := jobCount_pos hkey.1 hS
      have hl := mkRanges_length obs.length
        (resolveBatchVal obs.length 0 (some s)).toNat
        (obs.length / min (resolveBatchVal obs.length 0 (some s)).toNat obs.length)
      exact ⟨_, List.getElem_mem (by rw [hl]; exact hJ)⟩
    rw [get_nearest_true_rrErr dist obs refs (some s) 0 hp
      (by rw [roundRobin, if_pos ⟨rfl, hne⟩])] at h
    exact Except.noConfusion h

theorem get_nearest_ok_lists {P α : Type} [LinearOrder α] (dist : P → P → α)
    (obs refs : List P) (bS : Option Int) (mg : Bool) (G : Nat)
    {idx : List (Option Nat)} {dst : List (Option α)}
    (hvalid : bS = none ∨ ∃ s : Int, 0 < s ∧ bS = some s)
    (h : get_nearest dist obs refs bS mg G = .ok (idx, dst)) :
    idx = obs.map (fun o => (nearestRef dist refs o).map (fun p => p.1)) ∧
    dst = obs.map (fun o => (nearestRef dist refs o).map (fun p => p.2)) := by
  cases mg with
  | false =>
    rw [get_nearest_single] at h
    have := Except.ok.inj h
    rw [Prod.ext_iff] at this
    exact ⟨this.1.symm, this.2.symm⟩
  | true =>
    obtain ⟨hN, hG, hb⟩ := get_nearest_true_ok_inv dist obs refs bS G hvalid h
    rw [multi_fold_eq dist obs refs bS G hN hG hb] at h
    have := Except.ok.inj h
    rw [Prod.ext_iff] at this
    exact ⟨this.1.symm, this.2.symm⟩

theorem get_nearest_correct {P α : Type} [LinearOrder α] (dist : P → P → α)
    (obs refs : List P) (bS : Option Int) (mg : Bool) (G : Nat)
    {idx : List (Option Nat)} {dst : List (Option α)}
    (hrefs : refs ≠ [])
    (hvalid : bS = none ∨ ∃ s : Int, 0 < s ∧ bS = some s)
    (h : get_nearest dist obs refs bS mg G = .ok (idx, dst)) :
    ∀ i, ∀ hi : i < obs.length, ∃ k, ∃ hk : k < refs.length,
      idx[i]? = some (some k) ∧
      dst[i]? = some (some (dist obs[i] refs[k])) ∧
      ∀ r, ∀ hr : r < refs.length,
        dist obs[i] refs[k] ≤ dist obs[i] refs[r] := by
  obtain ⟨hidx, hdst⟩ := get_nearest_ok_lists dist obs refs bS mg G hvalid h
  subst hidx hdst
  intro i hi
  obtain ⟨k, hk, hnear, hmin, -⟩ := nearestRef_spec dist refs obs[i] hrefs
  refine ⟨k, hk, ?_, ?_, hmin⟩
  · rw [List.getElem?_map, List.getElem?_eq_getElem hi]
    simp [hnear]
  · rw [List.getElem?_map, List.getElem?_eq_getElem hi]
    simp [hnear]

/-! ### Claim theorems -/

/-- C1: for every non-empty observation set and non-empty reference set, a call
of `get_nearest` that returns a pair `(indices, distances)` satisfies the
postcondition that `indices[i]` is the index of a reference point at minimal
haversine distance (section 4.1) from `observations[i]` and `distances[i]` is
that distance, for every observation position `i`.  The batch-size argument is
restricted to the spec's precondition (a positive integer or `"auto"`,
section 6). -/
theorem C1_get_nearest_postcondition (R : ℝ) (obs refs : List (ℝ × ℝ))
    (bS : Option Int) (mg : Bool) (G : Nat)
    (idx : List (Option Nat)) (dst : List (Option ℝ))
    (hobs : obs ≠ []) (hrefs : refs ≠ [])
    (hvalid : bS = none ∨ ∃ s : Int, 0 < s ∧ bS = some s)
    (h : get_nearest (haversineDist R) obs refs bS mg G = .ok (idx, dst)) :
    ∀ i, ∀ hi : i < obs.length, ∃ k, ∃ hk : k < refs.length,
      idx[i]? = some (some k) ∧
      dst[i]? = some (some (haversineDist R obs[i] refs[k])) ∧
      ∀ r, ∀ hr : r < refs.length,
        haversineDist R obs[i] refs[k] ≤ haversineDist R obs[i] refs[r] :=
  get_nearest_correct (haversineDist R) obs refs bS mg G hrefs hvalid h

/-- Witness for C1 at a concrete input: one observation and one reference at
the origin. -/
theorem C1_witness :
    ∃ k, ∃ hk : k < ([((0 : ℝ), 0)] : List (ℝ × ℝ)).length,
      ([some 0] : List (Option Nat))[0]? = some (some k) ∧
      ([some (haversineDist 1 ((0 : ℝ), 0) ((0 : ℝ), 0))] :
        List (Option ℝ))[0]? =
        some (some (haversineDist 1 ([((0 : ℝ), 0)] : List (ℝ × ℝ))[0]
          ([((0 : ℝ), 0)] : List (ℝ × ℝ))[k])) ∧
      ∀ r, ∀ hr : r < ([((0 : ℝ), 0)] : List (ℝ × ℝ)).length,
        haversineDist 1 ([((0 : ℝ), 0)] : List (ℝ × ℝ))[0]
            ([((0 : ℝ), 0)] : List (ℝ × ℝ))[k] ≤
          haversineDist 1 ([((0 : ℝ), 0)] : List (ℝ × ℝ))[0]
            ([((0 : ℝ), 0)] : List (ℝ × ℝ))[r] :=
  C1_get_nearest_postcondition 1 [((0 : ℝ), 0)] [((0 : ℝ), 0)] (some 1) false 1
    [some 0] [some (haversineDist 1 ((0 : ℝ), 0) ((0 : ℝ), 0))]
    (by simp) (by simp) (Or.inr ⟨1, by omega, rfl⟩) rfl 0 (by decide)

/-- C3: on a non-empty observation set, whenever the resolved batch size is at
least one (the spec's precondition on batch size), the multi-device path of
`get_nearest` returns exactly the single-device path's result, for every device
count `G ≥ 1`; in particular `G = 1` is equivalent to the single-device path. -/
theorem C3_multi_single_equiv {P α : Type} [LinearOrder α] (dist : P → P → α)
    (obs refs : List P) (bS : Option Int) (G : Nat)
    (hobs : obs ≠ []) (hG : 1 ≤ G)
    (hb : 1 ≤ resolveBatchVal obs.length G bS) :
    get_nearest dist obs refs bS true G = get_nearest dist obs refs bS false G :=
  (multi_fold_eq dist obs refs bS G (List.length_pos.2 hobs) hG hb).trans
    (get_nearest_single dist obs refs bS G).symm

/-- Witness for C3 at a concrete input: three observations, two references, an
explicit batch size of 2, and two devices. -/
theorem C3_witness :
    get_nearest distInt [((0 : Int), 0), (5, 5), (2, 2)]
        [((1 : Int), 1), (6, 6)] (some 2) true 2 =
      get_nearest distInt [((0 : Int), 0), (5, 5), (2, 2)]
        [((1 : Int), 1), (6, 6)] (some 2) false 2 :=
  C3_multi_single_equiv distInt [((0 : Int), 0), (5, 5), (2, 2)]
    [((1 : Int), 1), (6, 6)] (some 2) 2 (by simp) (by omega) (by decide)

/-- C6: when two or more reference points lie at equal minimal distance from an
observation, the two-phase reduction (block scan then global reduction, both
with a strict less-than comparison) returns the lowest tied reference index,
together with the minimal distance. -/
theorem C6_tie_break_lowest_index {P α : Type} [LinearOrder α]
    (dist : P → P → α) (o : P) (refs : List P) (i j : Nat)
    (hij : i < j) (hj : j < refs.length)
    (heq : dist o refs[i] = dist o refs[j])
    (hmin : ∀ r, ∀ hr : r < refs.length, dist o refs[i] ≤ dist o refs[r]) :
    ∃ k, ∃ hk : k < refs.length, k ≤ i ∧
      nearestRef dist refs o = some (k, dist o refs[k]) ∧
      dist o refs[k] = dist o refs[i] ∧
      ∀ r, ∀ hr : r < refs.length, dist o refs[r] = dist o refs[i] → k ≤ r := by
  have hrefs : refs ≠ [] := by
    intro hx
    subst hx
    simp at hj
  obtain ⟨k, hk, hnear, hkmin, hfirst⟩ := nearestRef_spec dist refs o hrefs
  have hdk : dist o refs[k] = dist o refs[i] :=
    le_antisymm (hkmin i (by omega)) (hmin k hk)
  refine ⟨k, hk, ?_, hnear, hdk, ?_⟩
  · by_contra hik
    exact hfirst i (by omega) (by omega) hdk.symm
  · intro r hr hre
    by_contra hrk
    exact hfirst r hr (by omega) (hre.trans hdk.symm)

/-- Witness for C6 at a concrete input: references 1 and 2 are tied nearest to
the observation; the result selects index 1. -/
theorem C6_witness :
    ∃ k, ∃ hk : k < ([((5 : Int), 5), (0, 1), (1, 0)] : List (Int × Int)).length,
      k ≤ 1 ∧
      nearestRef distInt [((5 : Int), 5), (0, 1), (1, 0)] ((0 : Int), 0) =
        some (k, distInt ((0 : Int), 0)
          ([((5 : Int), 5), (0, 1), (1, 0)] : List (Int × Int))[k]) ∧
      distInt ((0 : Int), 0)
          ([((5 : Int), 5), (0, 1), (1, 0)] : List (Int × Int))[k] =
        distInt ((0 : Int), 0)
          ([((5 : Int), 5), (0, 1), (1, 0)] : List (Int × Int))[1] ∧
      ∀ r, ∀ hr : r < ([((5 : Int), 5), (0, 1), (1, 0)] : List (Int × Int)).length,
        distInt ((0 : Int), 0)
            ([((5 : Int), 5), (0, 1), (1, 0)] : List (Int × Int))[r] =
          distInt ((0 : Int), 0)
            ([((5 : Int), 5), (0, 1), (1, 0)] : List (Int × Int))[1] → k ≤ r :=
  C6_tie_break_lowest_index distInt ((0 : Int), 0)
    [((5 : Int), 5), (0, 1), (1, 0)] 1 2 (by omega) (by decide) (by decide)
    (by decide)

theorem countP_eq_one_of_unique {β : Type} {l : List β} {p : β → Bool}
    (hnd : l.Pairwise (· ≠ ·)) {a : β} (ha : a ∈ l) (hpa : p a = true)
    (hu : ∀ b ∈ l, p b = true → b = a) : l.countP p = 1 := by
  induction l with
  | nil => simp at ha
  | cons x xs ih =>
    rw [List.pairwise_cons] at hnd
    rw [List.countP_cons]
    rcases List.mem_cons.1 ha with rfl | hxs
    · rw [if_pos hpa]
      have hz : xs.countP p = 0 := by
        rw [List.countP_eq_zero]
        intro b hb hpb
        exact (hnd.1 b hb) (hu b (List.mem_cons_of_mem _ hb) hpb).symm
      omega
    · have hxa : ¬p x = true := by
        intro hpx
        exact (hnd.1 a hxs) (hu x (List.mem_cons_self _ _) hpx)
      rw [if_neg hxa, Nat.add_zero]
      exact ih hnd.2 hxs (fun b hb hpb => hu b (List.mem_cons_of_mem _ hb) hpb)

/-- C2: for every observation count `N ≥ 1`, resolved batch size `S ≥ 1` and
device count `G ≥ 1`, the job ranges planned by the multi-device path form a
partition of `[0, N)`: every observation index lies in exactly one range, the
ranges are contiguous with no gaps or overlaps, the first `J - 1` ranges have
size `S`, the first range starts at 0 and the final range ends at `N`. -/
theorem C2_partition (N S G : Nat) (hN : 1 ≤ N) (hS : 1 ≤ S) (hG : 1 ≤ G) :
    ∃ rs, planJobs N G (some (S : Int)) = .ok rs ∧
      rs.length = N / min S N ∧
      (∀ i, i < N ↔ ∃ r ∈ rs, r.1 ≤ i ∧ i < r.2) ∧
      (∀ i, i < N → rs.countP (fun r => inRange r i) = 1) ∧
      (∀ j, ∀ hj : j + 1 < rs.length, rs[j].2 = rs[j + 1].1) ∧
      (∀ j, ∀ hj : j + 1 < rs.length, rs[j].2 - rs[j].1 = S) ∧
      (∀ hne : rs ≠ [], (rs.getLast hne).2 = N) ∧
      (∀ hne : rs ≠ [], (rs.head hne).1 = 0) := by
  have hplan : planJobs N G (some (S : Int)) =
      .ok (mkRanges N S (N / min S N)) := by
    have hb1 : (1 : Int) ≤ resolveBatchVal N G (some (S : Int)) := by
      show (1 : Int) ≤ (S : Int)
      omega
    have := @planJobs_ok_of_pos N G (some (S : Int)) (by omega) hb1
    rwa [show (resolveBatchVal N G (some (S : Int))).toNat = S from
      Int.toNat_natCast S] at this
  refine ⟨mkRanges N S (N / min S N), hplan, mkRanges_length _ _ _, ?_, ?_, ?_, ?_, ?_, ?_⟩
  · intro i
    constructor
    · intro hi
      obtain ⟨j, hj, hjin⟩ := @mkRanges_cover N S (by omega) (by omega) i hi
      exact ⟨_, List.getElem_mem hj, hjin⟩
    · rintro ⟨r, hr, h1, h2⟩
      have := mkRanges_wf (by omega : 0 < N) (by omega : 0 < S) hr
      omega
  · intro i hi
    obtain ⟨j0, hj0, hj0in⟩ := @mkRanges_cover N S (by omega) (by omega) i hi
    rw [mkRanges_length] at hj0
    simp only [mkRanges, List.countP_map]
    apply countP_eq_one_of_unique (List.nodup_range _) (List.mem_range.2 hj0)
    · simp only [Function.comp, inRange, Bool.and_eq_true, decide_eq_true_eq]
      rw [mkRanges_getElem _ _ _ _ (by rw [mkRanges_length]; exact hj0)] at hj0in
      exact hj0in
    · intro b hb hpb
      rw [List.mem_range] at hb
      simp only [Function.comp, inRange, Bool.and_eq_true, decide_eq_true_eq] at hpb
      refine @mkRanges_disjoint N S (by omega : 0 < N) (by omega : 0 < S)
        i b j0 (by rw [mkRanges_length]; exact hb)
        (by rw [mkRanges_length]; exact hj0) ?_ ?_
      · rw [mkRanges_getElem _ _ _ _ (by rw [mkRanges_length]; exact hb)]
        exact hpb
      · rw [mkRanges_getElem _ _ _ _ (by rw [mkRanges_length]; exact hj0)]
        rw [mkRanges_getElem _ _ _ _ (by rw [mkRanges_length]; exact hj0)] at hj0in
        exact hj0in
  · intro j hj
    have hjlen := hj
    rw [mkRanges_length] at hjlen
    rw [mkRanges_getElem _ _ _ _ (by omega),
      mkRanges_getElem _ _ _ _ (by rw [mkRanges_length]; omega)]
    rw [if_neg (by omega)]
  · intro j hj
    have hjlen := hj
    rw [mkRanges_length] at hjlen
    rw [mkRanges_getElem _ _ _ _ (by omega)]
    rw [if_neg (by omega)]
    simp only [Nat.succ_mul]
    omega
  · intro hne
    have hJ : 0 < N / min S N := jobCount_pos (by omega) (by omega)
    rw [List.getLast_eq_getElem, mkRanges_getElem _ _ _ _
      (by rw [mkRanges_length]; omega)]
    rw [mkRanges_length, if_pos rfl]
  · intro hne
    have hJ : 0 < N / min S N := jobCount_pos (by omega) (by omega)
    rw [List.head_eq_getElem, mkRanges_getElem _ _ _ _
      (by rw [mkRanges_length]; omega)]
    simp

/-- Witness for C2 at a concrete input: `N = 5`, `S = 2`, `G = 2` (a size that
is a multiple of neither the batch size nor the device count). -/
theorem C2_witness :
    ∃ rs, planJobs 5 2 (some (2 : Int)) = .ok rs ∧
      rs.length = 5 / min 2 5 ∧
      (∀ i, i < 5 ↔ ∃ r ∈ rs, r.1 ≤ i ∧ i < r.2) ∧
      (∀ i, i < 5 → rs.countP (fun r => inRange r i) = 1) ∧
      (∀ j, ∀ hj : j + 1 < rs.length, rs[j].2 = rs[j + 1].1) ∧
      (∀ j, ∀ hj : j + 1 < rs.length, rs[j].2 - rs[j].1 = 2) ∧
      (∀ hne : rs ≠ [], (rs.getLast hne).2 = 5) ∧
      (∀ hne : rs ≠ [], (rs.head hne).1 = 0) :=
  C2_partition 5 2 2 (by omega) (by omega) (by omega)

theorem enumD_key_lt {β : Type} {l : List β} {p : Nat × β}
    (h : p ∈ enumD 0 l) : p.1 < l.length := by
  obtain ⟨k, d⟩ := p
  obtain ⟨-, hget⟩ := mem_enumD.1 h
  simp only [Nat.sub_zero] at hget
  obtain ⟨hk, -⟩ := List.getElem?_eq_some.1 hget
  exact hk

theorem length_filter_enumD_mod {β : Type} (jobs : List β) (G q : Nat)
    (hG : 0 < G) (hq : q < G) :
    ((enumD 0 jobs).filter (fun p => p.1 % G == q)).length =
      jobs.length / G + (if q < jobs.length % G then 1 else 0) := by
  induction jobs using List.reverseRecOn with
  | nil => simp [enumD]
  | append_singleton l x ih =>
    rw [enumD_append_singleton, List.filter_append, List.length_append, ih]
    rw [List.filter_singleton]
    have hms := mod_succ_eq l.length G hG
    have hds := div_succ_eq l.length G hG
    have hmlt : l.length % G < G := Nat.mod_lt _ hG
    simp only [Nat.zero_add]
    rw [List.length_append, List.length_singleton, hms, hds]
    by_cases hrq : l.length % G = q
    · have hbq : (((l.length, x).1 % G == q) : Bool) = true := by simpa using hrq
      rw [hbq, cond_true, List.length_singleton]
      by_cases hc : l.length % G + 1 = G
      · rw [if_pos hc, if_pos hc, if_neg (Nat.not_lt_zero q),
          if_neg (by omega : ¬q < l.length % G)]
      · rw [if_neg hc, if_neg hc, if_pos (by omega : q < l.length % G + 1),
          if_neg (by omega : ¬q < l.length % G)]
    · have hbq : (((l.length, x).1 % G == q) : Bool) = false := by simpa using hrq
      rw [hbq, cond_false, List.length_nil]
      by_cases hc : l.length % G + 1 = G
      · rw [if_pos hc, if_pos hc, if_neg (Nat.not_lt_zero q),
          if_pos (by omega : q < l.length % G)]
      · rw [if_neg hc, if_neg hc]
        by_cases hqr : q < l.length % G
        · rw [if_pos hqr, if_pos (by omega : q < l.length % G + 1)]
        · rw [if_neg hqr, if_neg (by omega : ¬q < l.length % G + 1)]

/-- C7: with `G ≥ 1` queues, the source's assignment loop sends job `j` to
queue `j mod G` in creation order — queue `q` holds exactly the jobs whose
creation index is congruent to `q` modulo `G`, in order — and consequently the
per-queue job counts differ by at most one. -/
theorem C7_round_robin_assignment {β : Type} (G : Nat) (hG : 1 ≤ G)
    (jobs : List β) :
    ∃ qs, roundRobin G jobs = .ok qs ∧ qs.length = G ∧
      (∀ q, ∀ hq : q < qs.length,
        qs[q] = ((enumD 0 jobs).filter (fun p => p.1 % G == q)).map
          (fun p => p.2)) ∧
      (∀ q q', ∀ hq : q < qs.length, ∀ hq' : q' < qs.length,
        qs[q].length ≤ qs[q'].length + 1) := by
  refine ⟨rrSpec G jobs, ?_, rrSpec_length G jobs, ?_, ?_⟩
  · rw [roundRobin, if_neg (by rintro ⟨h0, -⟩; omega), roundRobinCore_eq G hG]
  · intro q hq
    exact rrSpec_getElem G jobs q hq
  · intro q q' hq hq'
    have hqG : q < G := rrSpec_length G jobs ▸ hq
    have hqG' : q' < G := rrSpec_length G jobs ▸ hq'
    rw [rrSpec_getElem G jobs q hq, rrSpec_getElem G jobs q' hq',
      List.length_map, List.length_map,
      length_filter_enumD_mod jobs G q hG hqG,
      length_filter_enumD_mod jobs G q' hG hqG']
    split_ifs <;> omega

/-- Witness for C7 at a concrete input: five jobs over two queues. -/
theorem C7_witness :
    ∃ qs, roundRobin 2 [10, 11, 12, 13, 14] = .ok qs ∧ qs.length = 2 ∧
      (∀ q, ∀ hq : q < qs.length,
        qs[q] = ((enumD 0 [10, 11, 12, 13, 14]).filter
          (fun p => p.1 % 2 == q)).map (fun p => p.2)) ∧
      (∀ q q', ∀ hq : q < qs.length, ∀ hq' : q' < qs.length,
        qs[q].length ≤ qs[q'].length + 1) :=
  C7_round_robin_assignment 2 (by omega) [10, 11, 12, 13, 14]

/-! ### What the code actually does on invalid configurations -/

theorem foldl_combineMin_replicate_none {α : Type} [LinearOrder α] (n : Nat) :
    (List.replicate n (none : Option (Cand α))).foldl combineMin none = none := by
  induction n with
  | zero => rfl
  | succ m ih => exact ih

theorem nearestRef_nil {P α : Type} [LinearOrder α] (dist : P → P → α)
    (o : P) : nearestRef dist ([] : List P) o = none := by
  simp only [nearestRef, List.map_nil, enumD, List.length_nil, Nat.zero_add,
    List.drop_nil, List.take_nil, firstMin, List.foldl_nil, List.map_const']
  exact foldl_combineMin_replicate_none _

theorem foldl_queues_replicate_nil {P α : Type} [LinearOrder α]
    (dist : P → P → α) (refs obs : List P) (G : Nat) (bufs : Buffers α) :
    (List.replicate G ([] : List (Nat × Nat))).foldl
      (fun b q => q.foldl (applyJob dist refs obs) b) bufs = bufs := by
  induction G generalizing bufs with
  | zero => rfl
  | succ n ih => exact ih bufs

/-- C4 (amended): the code performs no configuration validation at all.  No
call of `get_nearest` ever produces a `ConfigurationError`; when the resolved
batch size is 0, or the observation set is empty, or the device count is 0
under an automatic batch size, the multi-device path raises
`ZeroDivisionError` (before any device work); a negative batch size raises no
error at all and returns completely unwritten output buffers; and an empty
reference set raises no error either. -/
theorem C4_no_validation {P α : Type} [LinearOrder α] (dist : P → P → α)
    (obs refs : List P) (bS : Option Int) (G : Nat) (mg : Bool) :
    (∀ e, get_nearest dist obs refs bS mg G = .error e →
      e ≠ PyError.configurationError) ∧
    ((bS = none ∧ G = 0) ∨
        min (resolveBatchVal obs.length G bS) (obs.length : Int) = 0 →
      get_nearest dist obs refs bS true G = .error .zeroDivisionError) ∧
    (resolveBatchVal obs.length G bS < 0 →
      get_nearest dist obs refs bS true G =
        .ok (List.replicate obs.length none, List.replicate obs.length none)) ∧
    (refs = [] → get_nearest dist obs refs bS false G =
      .ok (List.replicate obs.length none, List.replicate obs.length none)) := by
  refine ⟨?_, ?_, ?_, ?_⟩
  · intro e he
    cases mg with
    | false =>
      rw [get_nearest_single] at he
      exact Except.noConfusion he
    | true =>
      cases hp : planJobs obs.length G bS with
      | error e2 =>
        rw [get_nearest_true_planErr dist obs refs bS G hp] at he
        have he2 := Except.error.inj he
        subst he2
        intro hc
        rw [hc] at hp
        exact planJobs_never_config obs.length G bS hp
      | ok rs =>
        cases hrr : roundRobin G rs with
        | error e3 =>
          rw [get_nearest_true_rrErr dist obs refs bS G hp hrr] at he
          have he3 := Except.error.inj he
          subst he3
          rw [roundRobin] at hrr
          by_cases hg : G = 0 ∧ rs.isEmpty = false
          · rw [if_pos hg] at hrr
            have := Except.error.inj hrr
            subst this
            simp
          · rw [if_neg hg] at hrr
            exact Except.noConfusion hrr
        | ok qs =>
          simp only [get_nearest, hp, hrr] at he
          rw [if_neg (by simp)] at he
          exact Except.noConfusion he
  · rintro (⟨rfl, rfl⟩ | hm)
    · exact get_nearest_true_planErr dist obs refs none 0
        (show planJobs obs.length 0 none = .error .zeroDivisionError by
          simp [planJobs])
    · exact get_nearest_true_planErr dist obs refs bS G
        (planJobs_err_of_min_zero hm)
  · intro hneg
    have hp := planJobs_ok_of_neg hneg
    have hrr : roundRobin G ([] : List (Nat × Nat)) =
        .ok (roundRobinCore G []) := by
      rw [roundRobin, if_neg (by rintro ⟨-, hne⟩; simp at hne)]
    have hcore : roundRobinCore G ([] : List (Nat × Nat)) =
        List.replicate G [] := rfl
    simp only [get_nearest, hp, hrr, hcore]
    rw [if_neg (by simp), foldl_queues_replicate_nil]
    rfl
  · intro hrefs
    subst hrefs
    rw [get_nearest_single]
    simp [nearestRef_nil, List.map_const']

/-- Witness for C4 at concrete inputs: a batch size of 0 raises
`ZeroDivisionError` (not `ConfigurationError`); a batch size of -1 returns
unwritten buffers with no error; an empty reference set returns unwritten
buffers with no error. -/
theorem C4_witness :
    get_nearest distInt [((0 : Int), 0)] [((1 : Int), 1)] (some 0) true 1 =
      .error .zeroDivisionError ∧
    get_nearest distInt [((0 : Int), 0), (2, 2)] [((1 : Int), 1)]
        (some (-1)) true 2 =
      .ok (List.replicate 2 none, List.replicate 2 none) ∧
    get_nearest distInt [((0 : Int), 0)] ([] : List (Int × Int))
        (some 1) false 1 =
      .ok (List.replicate 1 none, List.replicate 1 none) := by
  refine ⟨?_, ?_, ?_⟩
  · exact (C4_no_validation distInt [((0 : Int), 0)] [((1 : Int), 1)]
      (some 0) 1 true).2.1 (Or.inr (by decide))
  · exact (C4_no_validation distInt [((0 : Int), 0), (2, 2)] [((1 : Int), 1)]
      (some (-1)) 2 true).2.2.1 (by decide)
  · exact (C4_no_validation distInt [((0 : Int), 0)]
      ([] : List (Int × Int)) (some 1) 1 false).2.2.2 rfl

/-- Counterexample to C4 as stated: a call whose batch size resolves to 0
raises `ZeroDivisionError`, not the `ConfigurationError` the claim requires
(no `ConfigurationError` exists anywhere in the code). -/
theorem C4_counterexample :
    get_nearest distInt [((0 : Int), 0)] [((1 : Int), 1)] (some 0) true 1 =
      .error .zeroDivisionError ∧
    PyError.zeroDivisionError ≠ PyError.configurationError :=
  ⟨rfl, by decide⟩

/-- C5 (amended): with an explicit batch size `S ≥ 1` and `N_OBS < G`, the
multi-device path still returns the single-device path's complete, correct
results; the planner creates at most `N_OBS` jobs, so at least the last of the
`G` queues receives zero jobs, and a worker with an empty queue terminates
immediately.  (With batch size `"auto"` this situation instead raises
`ZeroDivisionError`; see the counterexample.) -/
theorem C5_small_obs_count {P α : Type} [LinearOrder α] (dist : P → P → α)
    (obs refs : List P) (S G : Nat)
    (hobs : obs ≠ []) (hS : 1 ≤ S) (hNG : obs.length < G) :
    get_nearest dist obs refs (some (S : Int)) true G =
      get_nearest dist obs refs (some (S : Int)) false G ∧
    ∃ rs qs, planJobs obs.length G (some (S : Int)) = .ok rs ∧
      roundRobin G rs = .ok qs ∧ rs.length ≤ obs.length ∧ qs.length = G ∧
      ∃ hq : G - 1 < qs.length, qs[G - 1] = [] := by
  have hN : 0 < obs.length := List.length_pos.2 hobs
  have hG : 1 ≤ G := by omega
  have hb : 1 ≤ resolveBatchVal obs.length G (some (S : Int)) := by
    show (1 : Int) ≤ (S : Int)
    omega
  constructor
  · exact (multi_fold_eq dist obs refs (some (S : Int)) G hN hG hb).trans
      (get_nearest_single dist obs refs (some (S : Int)) G).symm
  · have hplan := @planJobs_ok_of_pos obs.length G (some (S : Int)) hN hb
    have hres : resolveBatchVal obs.length G (some (S : Int)) = (S : Int) := rfl
    rw [hres, Int.toNat_natCast] at hplan
    set rs := mkRanges obs.length S (obs.length / min S obs.length) with hrs
    have hlenrs : rs.length ≤ obs.length := by
      rw [hrs, mkRanges_length]
      exact Nat.div_le_self _ _
    refine ⟨rs, rrSpec G rs, hplan, ?_, hlenrs, rrSpec_length G rs, ?_, ?_⟩
    · rw [roundRobin, if_neg (by rintro ⟨h0, -⟩; omega),
        roundRobinCore_eq G hG]
    · rw [rrSpec_length]
      omega
    · rw [rrSpec_getElem]
      have hfil : (enumD 0 rs).filter (fun p => p.1 % G == G - 1) = [] := by
        rw [List.filter_eq_nil_iff]
        intro p hp
        have hkey : p.1 < rs.length := enumD_key_lt hp
        have hkeyG : p.1 < G := by omega
        rw [Nat.mod_eq_of_lt hkeyG]
        simp only [beq_iff_eq]
        omega
      rw [hfil]
      rfl

/-- Witness for C5 at a concrete input: one observation, two devices, explicit
batch size 1. -/
theorem C5_witness :
    get_nearest distInt [((0 : Int), 0)] [((1 : Int), 1)]
        (some ((1 : Nat) : Int)) true 2 =
      get_nearest distInt [((0 : Int), 0)] [((1 : Int), 1)]
        (some ((1 : Nat) : Int)) false 2 ∧
    ∃ rs qs, planJobs ([((0 : Int), 0)] : List (Int × Int)).length 2
        (some ((1 : Nat) : Int)) = .ok rs ∧
      roundRobin 2 rs = .ok qs ∧
      rs.length ≤ ([((0 : Int), 0)] : List (Int × Int)).length ∧
      qs.length = 2 ∧ ∃ hq : 2 - 1 < qs.length, qs[2 - 1] = [] :=
  C5_small_obs_count distInt [((0 : Int), 0)] [((1 : Int), 1)] 1 2
    (by simp) (by omega) (by simp)

/-- Counterexample to C5 as stated: under the default automatic batch size,
`N_OBS < device_count` does not return correct, complete results — it raises
`ZeroDivisionError`, because the resolved batch size truncates to zero. -/
theorem C5_counterexample :
    get_nearest distInt [((0 : Int), 0)] [((1 : Int), 1)] none true 2 =
      .error .zeroDivisionError := rfl

/-! ### Frame and termination properties -/

theorem mkRanges_countP_one {N S : Nat} (hN : 1 ≤ N) (hS : 1 ≤ S) {i : Nat}
    (hi : i < N) :
    (mkRanges N S (N / min S N)).countP (fun r => inRange r i) = 1 := by
  obtain ⟨j0, hj0, hj0in⟩ := @mkRanges_cover N S (by omega) (by omega) i hi
  rw [mkRanges_length] at hj0
  simp only [mkRanges, List.countP_map]
  apply countP_eq_one_of_unique (List.nodup_range _) (List.mem_range.2 hj0)
  · simp only [Function.comp, inRange, Bool.and_eq_true, decide_eq_true_eq]
    rw [mkRanges_getElem _ _ _ _ (by rw [mkRanges_length]; exact hj0)] at hj0in
    exact hj0in
  · intro b hb hpb
    rw [List.mem_range] at hb
    simp only [Function.comp, inRange, Bool.and_eq_true, decide_eq_true_eq] at hpb
    refine @mkRanges_disjoint N S (by omega : 0 < N) (by omega : 0 < S)
      i b j0 (by rw [mkRanges_length]; exact hb)
      (by rw [mkRanges_length]; exact hj0) ?_ ?_
    · rw [mkRanges_getElem _ _ _ _ (by rw [mkRanges_length]; exact hb)]
      exact hpb
    · rw [mkRanges_getElem _ _ _ _ (by rw [mkRanges_length]; exact hj0)]
      rw [mkRanges_getElem _ _ _ _ (by rw [mkRanges_length]; exact hj0)] at hj0in
      exact hj0in

/-- C9: a worker processing a job writes only the output slots whose
observation index lies in the job's half-open range (every other slot keeps its
previous value), and across the planned ranges every observation index is
covered by exactly one job, the planned ranges being pairwise disjoint — so no
two workers ever write the same output slot and the writes need no locking. -/
theorem C9_frame_disjoint_writes {P α : Type} [LinearOrder α]
    (dist : P → P → α) (refs obs : List P) (bufs : Buffers α) (r : Nat × Nat)
    (hwf : r.1 ≤ r.2 ∧ r.2 ≤ obs.length)
    (hb1 : bufs.outIdx.length = obs.length)
    (hb2 : bufs.outDist.length = obs.length)
    (N S : Nat) (hN : 1 ≤ N) (hS : 1 ≤ S) :
    (∀ i, ¬(r.1 ≤ i ∧ i < r.2) →
      (applyJob dist refs obs bufs r).outIdx[i]? = bufs.outIdx[i]? ∧
      (applyJob dist refs obs bufs r).outDist[i]? = bufs.outDist[i]?) ∧
    (∀ i, i < N →
      (mkRanges N S (N / min S N)).countP (fun q => inRange q i) = 1) ∧
    (mkRanges N S (N / min S N)).Pairwise
      (fun a b => ∀ i, ¬(inRange a i = true ∧ inRange b i = true)) := by
  refine ⟨?_, ?_, ?_⟩
  · intro i hi
    exact applyJob_getElem?_out dist refs obs bufs r hwf hb1 hb2 hi
  · intro i hi
    exact mkRanges_countP_one hN hS hi
  · rw [List.pairwise_iff_getElem]
    intro a b ha hb hab i hcon
    have h1 : (mkRanges N S (N / min S N))[a].1 ≤ i ∧
        i < (mkRanges N S (N / min S N))[a].2 := by
      simpa [inRange] using hcon.1
    have h2 : (mkRanges N S (N / min S N))[b].1 ≤ i ∧
        i < (mkRanges N S (N / min S N))[b].2 := by
      simpa [inRange] using hcon.2
    exact absurd (@mkRanges_disjoint N S (by omega) (by omega) i a b ha hb h1 h2)
      (by omega)

/-- Witness for C9 at a concrete input. -/
theorem C9_witness :
    (∀ i, ¬(1 ≤ i ∧ i < 2) →
      (applyJob distInt [((1 : Int), 1)] [((0 : Int), 0), (5, 5), (2, 2)]
        (initBufs Int 3) (1, 2)).outIdx[i]? = (initBufs Int 3).outIdx[i]? ∧
      (applyJob distInt [((1 : Int), 1)] [((0 : Int), 0), (5, 5), (2, 2)]
        (initBufs Int 3) (1, 2)).outDist[i]? = (initBufs Int 3).outDist[i]?) ∧
    (∀ i, i < 4 →
      (mkRanges 4 2 (4 / min 2 4)).countP (fun q => inRange q i) = 1) ∧
    (mkRanges 4 2 (4 / min 2 4)).Pairwise
      (fun a b => ∀ i, ¬(inRange a i = true ∧ inRange b i = true)) :=
  C9_frame_disjoint_writes distInt [((1 : Int), 1)]
    [((0 : Int), 0), (5, 5), (2, 2)] (initBufs Int 3) (1, 2)
    (by decide) rfl rfl 4 2 (by omega) (by omega)

theorem workerLoop_complete {P α : Type} [LinearOrder α] (dist : P → P → α)
    (refs obs : List P) :
    ∀ (q : List (Nat × Nat)) (bufs : Buffers α),
      workerLoop dist refs obs q q.length bufs =
        some (q.foldl (applyJob dist refs obs) bufs) := by
  intro q
  induction q with
  | nil => intro bufs; rfl
  | cons j rest ih => intro bufs; exact ih _

/-- C10: every job is enqueued before any worker starts, so each queue's
unfinished-task count equals its job count when workers begin; a worker's
`while unfinished_tasks > 0` loop then performs exactly one iteration per job
in its queue and terminates with all of them processed (`some`, never the
blocked outcome `none`), and the Dispatcher's final join — the multi-device
call itself — returns a result. -/
theorem C10_worker_loop_terminates {P α : Type} [LinearOrder α]
    (dist : P → P → α) (obs refs : List P) (bS : Option Int) (G : Nat)
    (rs : List (Nat × Nat)) (qs : List (List (Nat × Nat)))
    (hp : planJobs obs.length G bS = .ok rs)
    (hq : roundRobin G rs = .ok qs) :
    (∀ q ∈ qs, ∀ bufs : Buffers α,
      workerLoop dist refs obs q q.length bufs =
        some (q.foldl (applyJob dist refs obs) bufs)) ∧
    ∃ pr, get_nearest dist obs refs bS true G = .ok pr := by
  refine ⟨fun q hq2 bufs => workerLoop_complete dist refs obs q bufs, ?_⟩
  refine ⟨((qs.foldl (fun bufs q => q.foldl (applyJob dist refs obs) bufs)
      (initBufs α obs.length)).outIdx,
    (qs.foldl (fun bufs q => q.foldl (applyJob dist refs obs) bufs)
      (initBufs α obs.length)).outDist), ?_⟩
  simp [get_nearest, hp, hq]

/-- Witness for C10 at a concrete input: two jobs over two queues. -/
theorem C10_witness :
    (∀ q ∈ [[((0 : Nat), (1 : Nat))], [(1, 2)]], ∀ bufs : Buffers Int,
      workerLoop distInt [((1 : Int), 1)] [((0 : Int), 0), (5, 5)]
          q q.length bufs =
        some (q.foldl (applyJob distInt [((1 : Int), 1)]
          [((0 : Int), 0), (5, 5)]) bufs)) ∧
    ∃ pr, get_nearest distInt [((0 : Int), 0), (5, 5)] [((1 : Int), 1)]
      (some 1) true 2 = .ok pr :=
  C10_worker_loop_terminates distInt [((0 : Int), 0), (5, 5)] [((1 : Int), 1)]
    (some 1) 2 [(0, 1), (1, 2)] [[(0, 1)], [(1, 2)]] rfl rfl

/-! ### Kernel failures are confined to their worker thread -/

theorem workerRunF_length {P α : Type} [LinearOrder α] (dist : P → P → α)
    (refs obs : List P) (fails : Nat × Nat → Bool) (q : List (Nat × Nat))
    (hwfq : ∀ j ∈ q, j.1 ≤ j.2 ∧ j.2 ≤ obs.length) :
    ∀ bufs : Buffers α, bufs.outIdx.length = obs.length →
      bufs.outDist.length = obs.length →
      (workerRunF dist refs obs fails q bufs).outIdx.length = obs.length ∧
      (workerRunF dist refs obs fails q bufs).outDist.length = obs.length := by
  induction q with
  | nil => exact fun bufs hb1 hb2 => ⟨hb1, hb2⟩
  | cons j rest ih =>
    intro bufs hb1 hb2
    by_cases hfj : fails j = true
    · simp only [workerRunF, if_pos hfj]
      exact ⟨hb1, hb2⟩
    · simp only [workerRunF, if_neg hfj]
      have hj := hwfq j (List.mem_cons_self _ _)
      obtain ⟨h1, h2⟩ := applyJob_length dist refs obs bufs j hj hb1 hb2
      exact ih (fun x hx => hwfq x (List.mem_cons_of_mem _ hx)) _ h1 h2

theorem workerRunF_untouched {P α : Type} [LinearOrder α] (dist : P → P → α)
    (refs obs : List P) (fails : Nat × Nat → Bool) (q : List (Nat × Nat))
    (hwfq : ∀ j ∈ q, j.1 ≤ j.2 ∧ j.2 ≤ obs.length) {i : Nat}
    (hno : ∀ j ∈ q, fails j = false → ¬(j.1 ≤ i ∧ i < j.2)) :
    ∀ bufs : Buffers α, bufs.outIdx.length = obs.length →
      bufs.outDist.length = obs.length →
      (workerRunF dist refs obs fails q bufs).outIdx[i]? = bufs.outIdx[i]? ∧
      (workerRunF dist refs obs fails q bufs).outDist[i]? = bufs.outDist[i]? := by
  induction q with
  | nil => exact fun bufs hb1 hb2 => ⟨rfl, rfl⟩
  | cons j rest ih =>
    intro bufs hb1 hb2
    by_cases hfj : fails j = true
    · simp [workerRunF, hfj]
    · simp only [workerRunF, if_neg hfj]
      have hj := hwfq j (List.mem_cons_self _ _)
      obtain ⟨h1, h2⟩ := applyJob_length dist refs obs bufs j hj hb1 hb2
      obtain ⟨e1, e2⟩ := applyJob_getElem?_out dist refs obs bufs j hj hb1 hb2
        (hno j (List.mem_cons_self _ _) (Bool.not_eq_true _ ▸ hfj))
      obtain ⟨f1, f2⟩ := ih (fun x hx => hwfq x (List.mem_cons_of_mem _ hx))
        (fun x hx hfx => hno x (List.mem_cons_of_mem _ hx) hfx) _ h1 h2
      exact ⟨f1.trans e1, f2.trans e2⟩

theorem foldl_workerRunF_untouched {P α : Type} [LinearOrder α]
    (dist : P → P → α) (refs obs : List P) (fails : Nat × Nat → Bool)
    (qs : List (List (Nat × Nat)))
    (hall : ∀ q ∈ qs, ∀ j ∈ q, j.1 ≤ j.2 ∧ j.2 ≤ obs.length) {i : Nat}
    (hno : ∀ q ∈ qs, ∀ j ∈ q, fails j = false → ¬(j.1 ≤ i ∧ i < j.2)) :
    ∀ bufs : Buffers α, bufs.outIdx.length = obs.length →
      bufs.outDist.length = obs.length →
      ((qs.foldl (fun b q => workerRunF dist refs obs fails q b)
          bufs).outIdx.length = obs.length ∧
        (qs.foldl (fun b q => workerRunF dist refs obs fails q b)
          bufs).outDist.length = obs.length) ∧
      (qs.foldl (fun b q => workerRunF dist refs obs fails q b)
          bufs).outIdx[i]? = bufs.outIdx[i]? ∧
      (qs.foldl (fun b q => workerRunF dist refs obs fails q b)
          bufs).outDist[i]? = bufs.outDist[i]? := by
  induction qs with
  | nil => exact fun bufs hb1 hb2 => ⟨⟨hb1, hb2⟩, rfl, rfl⟩
  | cons q rest ih =>
    intro bufs hb1 hb2
    have hq := hall q (List.mem_cons_self _ _)
    obtain ⟨h1, h2⟩ := workerRunF_length dist refs obs fails q hq bufs hb1 hb2
    obtain ⟨e1, e2⟩ := workerRunF_untouched dist refs obs fails q hq
      (hno q (List.mem_cons_self _ _)) bufs hb1 hb2
    obtain ⟨hl, f1, f2⟩ := ih (fun x hx => hall x (List.mem_cons_of_mem _ hx))
      (fun x hx => hno x (List.mem_cons_of_mem _ hx)) _ h1 h2
    exact ⟨hl, f1.trans e1, f2.trans e2⟩

theorem foldl_workerRunF_length {P α : Type} [LinearOrder α]
    (dist : P → P → α) (refs obs : List P) (fails : Nat × Nat → Bool)
    (qs : List (List (Nat × Nat)))
    (hall : ∀ q ∈ qs, ∀ j ∈ q, j.1 ≤ j.2 ∧ j.2 ≤ obs.length) :
    ∀ bufs : Buffers α, bufs.outIdx.length = obs.length →
      bufs.outDist.length = obs.length →
      (qs.foldl (fun b q => workerRunF dist refs obs fails q b)
        bufs).outIdx.length = obs.length ∧
      (qs.foldl (fun b q => workerRunF dist refs obs fails q b)
        bufs).outDist.length = obs.length := by
  induction qs with
  | nil => exact fun bufs hb1 hb2 => ⟨hb1, hb2⟩
  | cons q rest ih =>
    intro bufs hb1 hb2
    have hq := hall q (List.mem_cons_self _ _)
    obtain ⟨h1, h2⟩ := workerRunF_length dist refs obs fails q hq bufs hb1 hb2
    exact ih (fun x hx => hall x (List.mem_cons_of_mem _ hx)) _ h1 h2

/-- C8 (amended): a kernel failure inside a worker is confined to that worker
thread.  The Dispatcher joins the threads normally, so the multi-device call
still returns `ok` — the failure is not propagated, the other workers are not
aborted — and the failed job's output slots are left unwritten, so the caller
can receive a partially-filled result rather than an error; the failed job is
never retried (its slots stay unwritten in the returned buffers). -/
theorem C8_failure_confined {P α : Type} [LinearOrder α] (dist : P → P → α)
    (obs refs : List P) (fails : Nat × Nat → Bool) (bS : Option Int) (G : Nat)
    (hN : 0 < obs.length) (hG : 1 ≤ G)
    (hb : 1 ≤ resolveBatchVal obs.length G bS)
    {rs : List (Nat × Nat)} (hp : planJobs obs.length G bS = .ok rs)
    {k : Nat} (hk : k < rs.length) (hf : fails rs[k] = true) :
    ∃ oi od, get_nearestF dist fails obs refs bS G = .ok (oi, od) ∧
      oi.length = obs.length ∧ od.length = obs.length ∧
      ∀ i, rs[k].1 ≤ i → i < rs[k].2 →
        oi[i]? = some none ∧ od[i]? = some none := by
  have hS : 0 < (resolveBatchVal obs.length G bS).toNat := by omega
  have hplan2 := planJobs_ok_of_pos hN hb
  have hrseq : rs = mkRanges obs.length (resolveBatchVal obs.length G bS).toNat
      (obs.length / min (resolveBatchVal obs.length G bS).toNat obs.length) :=
    Except.ok.inj (hp.symm.trans hplan2)
  subst hrseq
  have hrr : roundRobin G (mkRanges obs.length
      (resolveBatchVal obs.length G bS).toNat
      (obs.length / min (resolveBatchVal obs.length G bS).toNat obs.length)) =
      .ok (roundRobinCore G (mkRanges obs.length
        (resolveBatchVal obs.length G bS).toNat
        (obs.length / min (resolveBatchVal obs.length G bS).toNat
          obs.length))) := by
    rw [roundRobin, if_neg (by rintro ⟨h0, -⟩; omega)]
  have hwfrs : ∀ j ∈ (mkRanges obs.length (resolveBatchVal obs.length G bS).toNat (obs.length / min (resolveBatchVal obs.length G bS).toNat obs.length)), j.1 ≤ j.2 ∧ j.2 ≤ obs.length := by
    intro j hj
    exact mkRanges_wf hN hS hj
  have hall : ∀ q ∈ roundRobinCore G (mkRanges obs.length (resolveBatchVal obs.length G bS).toNat (obs.length / min (resolveBatchVal obs.length G bS).toNat obs.length)), ∀ j ∈ q,
      j.1 ≤ j.2 ∧ j.2 ≤ obs.length := by
    intro q hq j hj
    exact hwfrs j ((mem_flatten_roundRobinCore G hG (mkRanges obs.length (resolveBatchVal obs.length G bS).toNat (obs.length / min (resolveBatchVal obs.length G bS).toNat obs.length)) j).1
      (List.mem_flatten.2 ⟨q, hq, hj⟩))
  have hlen1 : (initBufs α obs.length).outIdx.length = obs.length := by
    simp [initBufs]
  have hlen2 : (initBufs α obs.length).outDist.length = obs.length := by
    simp [initBufs]
  obtain ⟨hfl1, hfl2⟩ := foldl_workerRunF_length dist refs obs fails
    (roundRobinCore G (mkRanges obs.length (resolveBatchVal obs.length G bS).toNat (obs.length / min (resolveBatchVal obs.length G bS).toNat obs.length))) hall (initBufs α obs.length) hlen1 hlen2
  refine ⟨_, _, by simp [get_nearestF, hp, hrr], hfl1, hfl2, ?_⟩
  intro i hi1 hi2
  have hiN : i < obs.length := by
    have := hwfrs (mkRanges obs.length (resolveBatchVal obs.length G bS).toNat (obs.length / min (resolveBatchVal obs.length G bS).toNat obs.length))[k] (List.getElem_mem hk)
    omega
  have hno : ∀ q ∈ roundRobinCore G (mkRanges obs.length (resolveBatchVal obs.length G bS).toNat (obs.length / min (resolveBatchVal obs.length G bS).toNat obs.length)), ∀ j ∈ q, fails j = false →
      ¬(j.1 ≤ i ∧ i < j.2) := by
    intro q hq j hj hfj hcon
    have hjrs : j ∈ (mkRanges obs.length (resolveBatchVal obs.length G bS).toNat (obs.length / min (resolveBatchVal obs.length G bS).toNat obs.length)) := (mem_flatten_roundRobinCore G hG (mkRanges obs.length (resolveBatchVal obs.length G bS).toNat (obs.length / min (resolveBatchVal obs.length G bS).toNat obs.length)) j).1
      (List.mem_flatten.2 ⟨q, hq, hj⟩)
    obtain ⟨jj, hjj, hjeq⟩ := List.getElem_of_mem hjrs
    rw [← hjeq] at hcon
    have hkin : (mkRanges obs.length (resolveBatchVal obs.length G bS).toNat (obs.length / min (resolveBatchVal obs.length G bS).toNat obs.length))[k].1 ≤ i ∧ i < (mkRanges obs.length (resolveBatchVal obs.length G bS).toNat (obs.length / min (resolveBatchVal obs.length G bS).toNat obs.length))[k].2 := ⟨hi1, hi2⟩
    have hjjk : jj = k :=
      @mkRanges_disjoint obs.length (resolveBatchVal obs.length G bS).toNat
        (by omega) hS i jj k hjj hk hcon hkin
    subst hjjk
    rw [hjeq] at hf
    rw [hf] at hfj
    exact Bool.noConfusion hfj
  obtain ⟨-, g1, g2⟩ := foldl_workerRunF_untouched dist refs obs fails
    (roundRobinCore G (mkRanges obs.length (resolveBatchVal obs.length G bS).toNat (obs.length / min (resolveBatchVal obs.length G bS).toNat obs.length))) hall hno (initBufs α obs.length) hlen1 hlen2
  constructor
  · rw [g1]
    simp [initBufs, List.getElem?_replicate, hiN]
  · rw [g2]
    simp [initBufs, List.getElem?_replicate, hiN]

/-- Witness for C8 at a concrete input: four observations, four one-element
jobs over two queues, the kernel failing on job `(2, 3)`; the call still
returns `ok` and slot 2 is unwritten. -/
theorem C8_witness :
    ∃ oi od, get_nearestF distInt (fun r => r.1 == 2)
        [((0 : Int), 0), (5, 5), (2, 2), (7, 7)]
        [((1 : Int), 1), (2, 2), (6, 6)] (some 1) 2 = .ok (oi, od) ∧
      oi.length = ([((0 : Int), 0), (5, 5), (2, 2), (7, 7)] :
        List (Int × Int)).length ∧
      od.length = ([((0 : Int), 0), (5, 5), (2, 2), (7, 7)] :
        List (Int × Int)).length ∧
      ∀ i, ([(0, 1), (1, 2), (2, 3), (3, 4)] :
          List (Nat × Nat))[2].1 ≤ i →
        i < ([(0, 1), (1, 2), (2, 3), (3, 4)] : List (Nat × Nat))[2].2 →
        oi[i]? = some none ∧ od[i]? = some none :=
  @C8_failure_confined (Int × Int) Int _ distInt
    [((0 : Int), 0), (5, 5), (2, 2), (7, 7)]
    [((1 : Int), 1), (2, 2), (6, 6)] (fun r => r.1 == 2) (some 1) 2
    (by simp) (by omega) (by decide) [(0, 1), (1, 2), (2, 3), (3, 4)]
    rfl 2 (by decide) (by decide)

/-- Counterexample to C8 as stated: with a kernel failure on job `(2, 3)`, the
Dispatcher neither aborts the other workers nor returns an error — it returns
`ok` with output buffers in which slot 2 is unwritten, a partially-filled
result. -/
theorem C8_counterexample :
    get_nearestF distInt (fun r => r.1 == 2)
        [((0 : Int), 0), (5, 5), (2, 2), (7, 7)]
        [((1 : Int), 1), (2, 2), (6, 6)] (some 1) 2 =
      .ok ([some 0, some 2, none, some 2], [some 2, some 2, none, some 2]) ∧
    ([some 0, some 2, none, some 2] : List (Option Nat))[2]? = some none :=
  ⟨rfl, rfl⟩
